import Mathlib

/-!
Verification of the TreeSearch core (Hit.cxx, PatternGenerator.cxx) against its
specification.  The C++ sources are shallowly embedded: hit collections become
lists, ROOT iterators become integer cursors, pointers become indices, and the
floating-point geometry is carried out exactly over the rationals.
-/

namespace TreeSearch

/-- A hit, reduced to the data the core consults: the wire-plane index and the
position along the measurement axis (Hit.cxx only reads these through
Compare and GetPlaneNum). -/
structure Hit where
  plane : Nat
  pos : ℚ
deriving DecidableEq

/-- Modelled from the spec: Hit::Compare lives in Hit.h, which is not part of
src/.  Per spec section 3 it is a three-valued comparison with result -1
(position less than, beyond maxdist), 0 (within maxdist) and +1 (greater
than, beyond maxdist). -/
def Hit.Compare (a b : Hit) (maxdist : ℚ) : Int :=
  if a.pos < b.pos - maxdist then -1
  else if b.pos + maxdist < a.pos then 1
  else 0

/-- Hits of a collection, addressed by index; out-of-range access yields a
dummy (never exercised on the reachable iterator states). -/
def hget (l : List Hit) (i : Nat) : Hit :=
  l.getD i ⟨0, 0⟩

/-- One TIterator::Next() call on a collection of length n whose cursor is i:
returns the element index (none when exhausted) and the new cursor. -/
def readIdx (n i : Nat) : Option Nat × Nat :=
  if i < n then (some i, i + 1) else (none, i)

/-- State of TreeSearch::HitPairIter (Hit.cxx).  The two collections are kept
outside the state; fIterA/fIterB/fSaveIter are cursor positions and
fSaveHit/fCurrent/fNext hold element indices in place of Hit pointers. -/
structure HitPairIter where
  fIterA : Nat
  fIterB : Nat
  fSaveIter : Nat
  fSaveHit : Option Nat
  fScanning : Bool
  fCurrent : Option Nat × Option Nat
  fNext : Option Nat × Option Nat
deriving DecidableEq

/-- The while loop at the end of a B scan (Hit.cxx lines 232-234): advance B
until either the saved hit reaches nextB (pointer comparison, here index
comparison) or it no longer compares below the new A hit.  The fuel argument
dominates the loop; any fuel above B.length + 1 is enough because every
iteration either stops or advances the cursor. -/
def scanForward (B : List Hit) (maxdist : ℚ) (aNew : Hit) :
    Nat → Option Nat → Option Nat → Nat → Option Nat × Nat
  | 0, hB, _, iB => (hB, iB)
  | fuel + 1, hB, nB, iB =>
    if hB = nB then (hB, iB)
    else
      match hB with
      | none => (none, iB)
      | some j =>
        if (hget B j).Compare aNew maxdist < 0 then
          let r := readIdx B.length iB
          scanForward B maxdist aNew fuel r.1 nB r.2
        else (some j, iB)

/-- Iterator state right after the fStarted initialization inside the first
Next() call (Hit.cxx lines 194-198): fNext holds the first element of each
collection and both cursors stand past it. -/
def HitPairIter.init (A B : List Hit) : HitPairIter :=
  let ra := readIdx A.length 0
  let rb := readIdx B.length 0
  { fIterA := ra.2, fIterB := rb.2, fSaveIter := 0, fSaveHit := none,
    fScanning := false, fCurrent := (none, none), fNext := (ra.1, rb.1) }

/-- One call of HitPairIter::Next (Hit.cxx lines 187-274) on an already
started iterator.  fCurrent after the call is the emitted pair. -/
def Next (A B : List Hit) (maxdist : ℚ) (s : HitPairIter) : HitPairIter :=
  match s.fNext with
  | (some ia, some ib) =>
    let a := hget A ia
    let b := hget B ib
    let c := a.Compare b maxdist
    if c = -1 then
      let ra := readIdx A.length s.fIterA
      { s with
        fCurrent := (some ia, none), fNext := (ra.1, some ib), fIterA := ra.2 }
    else if c = 1 then
      let rb := readIdx B.length s.fIterB
      { s with
        fCurrent := (none, some ib), fNext := (some ia, rb.1), fIterB := rb.2 }
    else
      let rb := readIdx B.length s.fIterB
      let scanEnd : Bool :=
        match rb.1 with
        | none => true
        | some j => decide (a.Compare (hget B j) maxdist < 0)
      if scanEnd then
        if s.fScanning then
          let ra := readIdx A.length s.fIterA
          match ra.1 with
          | some ja =>
            let res := scanForward B maxdist (hget A ja) (B.length + 2)
              s.fSaveHit rb.1 s.fSaveIter
            { fIterA := ra.2, fIterB := res.2, fSaveIter := s.fSaveIter,
              fSaveHit := s.fSaveHit, fScanning := false,
              fCurrent := (some ia, some ib), fNext := (some ja, res.1) }
          | none =>
            { s with
              fScanning := false, fIterA := ra.2, fIterB := s.fSaveIter,
              fCurrent := (some ia, some ib), fNext := (none, rb.1) }
        else
          let ra := readIdx A.length s.fIterA
          { s with
            fIterA := ra.2, fIterB := rb.2,
            fCurrent := (some ia, some ib), fNext := (ra.1, rb.1) }
      else
        if s.fScanning then
          { s with
            fIterB := rb.2, fCurrent := (some ia, some ib),
            fNext := (some ia, rb.1) }
        else
          { s with
            fScanning := true, fSaveIter := rb.2, fSaveHit := some ib,
            fIterB := rb.2, fCurrent := (some ia, some ib), fNext := (some ia, rb.1) }
  | (some ia, none) =>
    let ra := readIdx A.length s.fIterA
    { s with
      fIterA := ra.2, fCurrent := (some ia, none), fNext := (ra.1, none) }
  | (none, some ib) =>
    let rb := readIdx B.length s.fIterB
    { s with
      fIterB := rb.2, fCurrent := (none, some ib), fNext := (none, rb.1) }
  | (none, none) =>
    { s with fCurrent := (none, none) }

/-- Successive emissions (values of fCurrent) of up to fuel calls of Next,
stopping after the terminal all-absent pair. -/
def emitTrace (A B : List Hit) (maxdist : ℚ) : Nat → HitPairIter → List (Option Nat × Option Nat)
  | 0, _ => []
  | fuel + 1, s =>
    let s1 := Next A B maxdist s
    s1.fCurrent ::
      (if s1.fCurrent = (none, none) then [] else emitTrace A B maxdist fuel s1)

/-- Enough Next calls to drive any pair of collections to exhaustion (a bound
on the termination measure proved below). -/
def fullFuel (A B : List Hit) : Nat :=
  (2 * B.length + 4) * (A.length + 2) + 3 * B.length + 10

/-- The complete emission sequence of a HitPairIter over two collections,
with element indices replaced by the hits themselves. -/
def emissions (A B : List Hit) (maxdist : ℚ) : List (Option Hit × Option Hit) :=
  (emitTrace A B maxdist (fullFuel A B) (HitPairIter.init A B)).map
    (fun e => (e.1.map (hget A), e.2.map (hget B)))

/-- Collections sorted consistently with the comparison key (position). -/
def SortedByPos (l : List Hit) : Prop :=
  l.Pairwise (fun a b => a.pos ≤ b.pos)

instance (l : List Hit) : Decidable (SortedByPos l) :=
  List.instDecidablePairwise l


/-- The hit collections of scenario S5: one hit on side A at x = 1.0, three
hits on side B at x = 0.8, 1.1, 1.3. -/
def hitsA5 : List Hit :=
  [⟨0, 1⟩]

/-- Side B of scenario S5. -/
def hitsB5 : List Hit :=
  [⟨1, 4/5⟩, ⟨1, 11/10⟩, ⟨1, 13/10⟩]

/-- C8: Scan scenario S5.  With A = [x=1.0] and B = [x=0.8, x=1.1, x=1.3] and
maxdist = 0.5, successive HitPairIter::Next calls emit exactly (A[0],B[0]),
(A[0],B[1]), (A[0],B[2]) in that order, followed by the terminal all-absent
pair. -/
theorem pairIter_scan_S5 :
    emissions hitsA5 hitsB5 (1/2) =
      [(some ⟨0, 1⟩, some ⟨1, 4/5⟩), (some ⟨0, 1⟩, some ⟨1, 11/10⟩),
       (some ⟨0, 1⟩, some ⟨1, 13/10⟩), (none, none)] := by
  with_unfolding_all rfl

/-- Every Compare result is one of -1, 0, 1. -/
theorem Compare_trichotomy (x y : Hit) (maxdist : ℚ) :
    x.Compare y maxdist = -1 ∨ x.Compare y maxdist = 0 ∨ x.Compare y maxdist = 1 := by
  unfold Hit.Compare
  split_ifs <;> simp

/-- Core soundness of one Next call: a pair emitted with both components
present only arises in the compare-equal switch case. -/
theorem Next_sound (A B : List Hit) (maxdist : ℚ) (s : HitPairIter) (ia ib : Nat)
    (h : (Next A B maxdist s).fCurrent = (some ia, some ib)) :
    (hget A ia).Compare (hget B ib) maxdist = 0 := by
  unfold Next at h
  rcases hsn : s.fNext with ⟨oa, ob⟩
  rw [hsn] at h
  cases oa with
  | none =>
    cases ob with
    | none => simp at h
    | some ib0 => simp at h
  | some ia0 =>
    cases ob with
    | none => simp at h
    | some ib0 =>
      simp only at h
      rcases Compare_trichotomy (hget A ia0) (hget B ib0) maxdist with hc | hc | hc
      · rw [if_pos hc] at h
        simp at h
      · rw [if_neg (by rw [hc]; decide), if_neg (by rw [hc]; decide)] at h
        have hia : ia0 = ia ∧ ib0 = ib := by
          split at h
          all_goals try split at h
          all_goals try split at h
          all_goals simp at h
          all_goals exact h
        obtain ⟨h1, h2⟩ := hia
        rw [← h1, ← h2]
        exact hc
      · rw [if_neg (by rw [hc]; decide), if_pos hc] at h
        simp at h

/-- C1: Pair-iterator soundness.  Whatever the iterator state, if a call of
HitPairIter::Next over sorted collections emits a pair with both components
present, then the two hits compare equal (within maxdist). -/
theorem pairIter_soundness (A B : List Hit) (maxdist : ℚ)
    (_hA : SortedByPos A) (_hB : SortedByPos B) (s : HitPairIter) (ia ib : Nat)
    (h : (Next A B maxdist s).fCurrent = (some ia, some ib)) :
    (hget A ia).Compare (hget B ib) maxdist = 0 :=
  Next_sound A B maxdist s ia ib h

/-- Witness for C1: the first Next call of scenario S5 emits the pair of the
two leading hits, and the theorem instantiates to them. -/
theorem pairIter_soundness_witness :
    SortedByPos hitsA5 ∧ SortedByPos hitsB5 ∧
      (Next hitsA5 hitsB5 (1/2) (HitPairIter.init hitsA5 hitsB5)).fCurrent = (some 0, some 0) ∧
      (hget hitsA5 0).Compare (hget hitsB5 0) (1/2) = 0 :=
  ⟨by with_unfolding_all decide, by with_unfolding_all decide, by with_unfolding_all rfl,
    pairIter_soundness hitsA5 hitsB5 (1/2) (by with_unfolding_all decide)
      (by with_unfolding_all decide) (HitPairIter.init hitsA5 hitsB5) 0 0
      (by with_unfolding_all rfl)⟩

/-- A HitPairIter bundled with the fMaxDist member of the C++ object. -/
structure HitPairIterObj where
  fMaxDist : ℚ
  fState : HitPairIter
deriving DecidableEq

/-- A freshly constructed iterator object (Hit.cxx lines 89-107): the
constructor stores maxdist and immediately calls Next once. -/
def HitPairIterObj.make (A B : List Hit) (maxdist : ℚ) : HitPairIterObj :=
  { fMaxDist := maxdist, fState := Next A B maxdist (HitPairIter.init A B) }

/-- The copy constructor (Hit.cxx lines 110-128): the collections are shared,
both iterators and the snapshot are duplicated at their current positions and
fSaveHit, fStarted, fScanning, fCurrent, fNext are taken from rhs; but the
member initializer fMaxDist(fMaxDist) reads the destination object's own
still-uninitialized fMaxDist instead of rhs.fMaxDist, so the copy's tolerance
is an arbitrary value, modelled by the junk argument. -/
def HitPairIterObj.copyCtor (rhs : HitPairIterObj) (junk : ℚ) : HitPairIterObj :=
  { fMaxDist := junk, fState := rhs.fState }

/-- Emissions an iterator object produces from its current point forward. -/
def HitPairIterObj.emitFrom (A B : List Hit) (it : HitPairIterObj) :
    List (Option Nat × Option Nat) :=
  emitTrace A B it.fMaxDist (fullFuel A B) it.fState

/-- Side A of the copy-constructor scenario: hits at x = 1.0 and x = 3.0. -/
def hitsA3 : List Hit :=
  [⟨0, 1⟩, ⟨0, 3⟩]

/-- Side B of the copy-constructor scenario: hits at x = 1.2 and x = 3.2. -/
def hitsB3 : List Hit :=
  [⟨1, 6/5⟩, ⟨1, 16/5⟩]

/-- C3: Copy equivalence of HitPairIter fails in the code.  The copy
constructor initializes fMaxDist from the destination's own uninitialized
member (Hit.cxx line 113 reads fMaxDist(fMaxDist), not rhs.fMaxDist), so a
copy taken after the first emission of the maxdist = 1/2 iterator over
A = [x=1.0, x=3.0], B = [x=1.2, x=3.2], whose indeterminate tolerance happens
to be 0, emits (A1,nil),(nil,B1) where the original emits (A1,B1): the copy
does not reproduce the original's emission sequence. -/
theorem copyCtor_fMaxDist_bug :
    HitPairIterObj.emitFrom hitsA3 hitsB3
        ((HitPairIterObj.make hitsA3 hitsB3 (1/2)).copyCtor 0) ≠
      HitPairIterObj.emitFrom hitsA3 hitsB3 (HitPairIterObj.make hitsA3 hitsB3 (1/2)) := by
  with_unfolding_all decide

/-- HitSet::GetMatchValue (Hit.cxx lines 277-286): the plane occupancy
pattern of a hit set, the OR over all hits of 1 shifted by the plane number. -/
def GetMatchValue (hits : List Hit) : Nat :=
  hits.foldl (fun curpat h => curpat ||| (1 <<< h.plane)) 0

/-- A HitSet: the sorted hits plus the cached plane_pattern member. -/
structure HitSet where
  hits : List Hit
  plane_pattern : Nat

/-- The merge walk of HitSet::IsSimilarTo (Hit.cxx lines 304-322), which ORs
up the plane bits of the elements common to the two sorted lists.  Modelled
from the spec: the Hset_t key comparison comp lives in Hit.h, which is not in
src/; per spec section 3 the sets are ordered by the comparison key, the
position. -/
def intersectPattern : List Hit → List Hit → Nat
  | _, [] => 0
  | [], _ :: _ => 0
  | a :: as, b :: bs =>
    if b.pos < a.pos then intersectPattern (a :: as) bs
    else if a.pos < b.pos then intersectPattern as (b :: bs)
    else (1 <<< b.plane) ||| intersectPattern as bs

/-- HitSet::IsSimilarTo (Hit.cxx lines 289-324). -/
def HitSet.IsSimilarTo (s tryset : HitSet) : Bool :=
  tryset.plane_pattern == intersectPattern s.hits tryset.hits

/-- A plane bit in the merge intersection pattern comes from a try-side hit of
that plane having a key-equal partner on the this side. -/
theorem intersectPattern_testBit (as bs : List Hit) (p : Nat)
    (h : (intersectPattern as bs).testBit p = true) :
    ∃ b ∈ bs, b.plane = p ∧ ∃ a ∈ as, a.pos = b.pos := by
  induction as, bs using intersectPattern.induct with
  | case1 as => simp [intersectPattern] at h
  | case2 b bs => simp [intersectPattern] at h
  | case3 a as b bs hlt ih =>
    rw [intersectPattern, if_pos hlt] at h
    obtain ⟨b1, hb1, hp1, a1, ha1, he1⟩ := ih h
    exact ⟨b1, List.mem_cons_of_mem b hb1, hp1, a1, ha1, he1⟩
  | case4 a as b bs hlt hlt2 ih =>
    rw [intersectPattern, if_neg hlt, if_pos hlt2] at h
    obtain ⟨b1, hb1, hp1, a1, ha1, he1⟩ := ih h
    exact ⟨b1, hb1, hp1, a1, List.mem_cons_of_mem a ha1, he1⟩
  | case5 a as b bs hlt hlt2 ih =>
    rw [intersectPattern, if_neg hlt, if_neg hlt2] at h
    rw [Nat.testBit_or] at h
    rcases Bool.or_eq_true_iff.1 h with h1 | h1
    · rw [Nat.shiftLeft_eq, Nat.one_mul, Nat.testBit_two_pow] at h1
      exact ⟨b, List.mem_cons_self b bs, (of_decide_eq_true h1).symm ▸ rfl, a,
        List.mem_cons_self a as, le_antisymm (le_of_not_lt hlt) (le_of_not_lt hlt2)⟩
    · obtain ⟨b1, hb1, hp1, a1, ha1, he1⟩ := ih h1
      exact ⟨b1, List.mem_cons_of_mem b hb1, hp1, a1, List.mem_cons_of_mem a ha1, he1⟩

/-- C5: HitSet similarity.  For sorted hit sets ordered by the comparison key,
IsSimilarTo(try) returns true exactly when the plane-occupancy bitmask of the
merge-order intersection equals the try set's cached plane_pattern, and a true
result means every plane set in try's plane_pattern has a hit of that plane
common to both sets (same key position on both sides). -/
theorem isSimilarTo_spec (s tryset : HitSet)
    (_h1 : SortedByPos s.hits) (_h2 : SortedByPos tryset.hits) :
    (s.IsSimilarTo tryset = true ↔
        intersectPattern s.hits tryset.hits = tryset.plane_pattern) ∧
      (s.IsSimilarTo tryset = true →
        ∀ p, tryset.plane_pattern.testBit p = true →
          ∃ b ∈ tryset.hits, b.plane = p ∧ ∃ a ∈ s.hits, a.pos = b.pos) := by
  constructor
  · rw [HitSet.IsSimilarTo, beq_iff_eq, eq_comm]
  · intro hsim p hp
    rw [HitSet.IsSimilarTo, beq_iff_eq] at hsim
    exact intersectPattern_testBit s.hits tryset.hits p (hsim ▸ hp)

/-- The this-side hit set of scenario S6. -/
def hitSetS6this : HitSet :=
  ⟨[⟨0, 30⟩, ⟨2, 32⟩, ⟨3, 40⟩, ⟨4, 50⟩], 29⟩

/-- The try-side hit set of scenario S6 (planes 2,3,4; pattern 28). -/
def hitSetS6try : HitSet :=
  ⟨[⟨2, 32⟩, ⟨3, 40⟩, ⟨4, 50⟩], 28⟩

/-- Witness for C5: the S6 hit sets are sorted and the theorem instantiates to
them. -/
theorem isSimilarTo_spec_witness :
    SortedByPos hitSetS6this.hits ∧ SortedByPos hitSetS6try.hits ∧
      ((hitSetS6this.IsSimilarTo hitSetS6try = true ↔
          intersectPattern hitSetS6this.hits hitSetS6try.hits =
            hitSetS6try.plane_pattern) ∧
        (hitSetS6this.IsSimilarTo hitSetS6try = true →
          ∀ p, hitSetS6try.plane_pattern.testBit p = true →
            ∃ b ∈ hitSetS6try.hits, b.plane = p ∧
              ∃ a ∈ hitSetS6this.hits, a.pos = b.pos)) :=
  ⟨by with_unfolding_all decide, by with_unfolding_all decide,
    isSimilarTo_spec hitSetS6this hitSetS6try (by with_unfolding_all decide)
      (by with_unfolding_all decide)⟩

/-- Modelled from the spec: the signed width of a Pattern (Pattern.h is
absent from src/).  Spec section 4.A and the glossary make width a signed
value whose sign flags a pending mirror; on the raw child vector it is the
last bin minus the first bin (equal to the maximum bin once canonical, with
bins[0] = 0). -/
def patWidth (bins : List Int) : Int :=
  bins.getLastD 0 - bins.headD 0

/-- Modelled from the spec: Pattern::Hash, a pure function of the bin tuple
(spec section 4.A; Pattern.h is absent from src/). -/
def patHash (bins : List Int) : Nat :=
  bins.foldl (fun h b => 2 * h + b.toNat) 1

/-- The raw child bit vector of ChildIter (PatternGenerator.cxx lines 55-62):
bit i is twice the parent bit plus bit i of the selector. -/
def rawOf (parent : List Int) (sel : Nat) : List Int :=
  parent.mapIdx (fun i b => 2 * b + (if sel.testBit i then 1 else 0))

/-- One candidate of PatternGenerator::ChildIter::operator++
(PatternGenerator.cxx lines 50-84) at a fixed selector value: the candidate
is dropped when its spread exceeds the absolute signed width; a positive
minimum bit means the child is shifted right (type bit 0); a negative width
means it is mirrored (type bit 1). -/
def childAt (parent : List Int) (sel : Nat) : Option (List Int × Nat) :=
  let raw := rawOf parent sel
  let minbit := raw.foldl min 1
  let maxbit := raw.foldl max 0
  let width := patWidth raw
  if maxbit - minbit > |width| then none
  else
    let st := if minbit = 0 then (raw, 0) else (raw.map (fun b => b - 1), 1)
    if width < 0 then some (st.1.map (fun b => -width - b), st.2 + 2)
    else some st

/-- The candidate sequence enumerated by a ChildIter over a parent: selector
values 2^nbits - 1 down to 0 (ChildIter::reset sets fCount = 1 << nbits and
operator++ yields the admissible candidates in decreasing selector order). -/
def childCandidates (parent : List Int) : List (List Int × Nat) :=
  ((List.range (2 ^ parent.length)).reverse).filterMap (childAt parent)

/-- A Pattern node of the build DAG: bin tuple, fMinDepth annotation and the
child link list as (child index, type) pairs, newest first since
Pattern::AddChild prepends.  An empty child list doubles as the null fChild
of C++.  Modelled from the spec where Pattern.h is silent in src/: a fresh
pattern's fMinDepth is above every depth in use (it has never been
requested), here fNlevels. -/
structure PatNode where
  bins : List Int
  fMinDepth : Nat
  fChild : List (Nat × Nat)
deriving DecidableEq

/-- The generator state: the arena of allocated patterns (owned by the hash
table) addressed by index, and the bucket array of pattern indices
(PatternGenerator.h lines 31-37). -/
structure GenState where
  arena : List PatNode
  fHashTable : List (List Nat)
deriving DecidableEq

/-- Build parameters after normalization: number of levels, normalized plane
z positions, maximum slope (PatternGenerator.h lines 32-35). -/
structure GenCfg where
  fNlevels : Nat
  fZ : List ℚ
  fMaxSlope : ℚ

/-- The pattern stored at an index of the arena. -/
def getNode (g : GenState) (pid : Nat) : PatNode :=
  g.arena.getD pid ⟨[], 0, []⟩

/-- Pattern::UsedAtDepth: lower fMinDepth to the given depth if smaller (spec
section 4.A). -/
def usedAtDepth (g : GenState) (pid d : Nat) : GenState :=
  let nd := getNode g pid
  { g with arena := g.arena.set pid { nd with fMinDepth := min nd.fMinDepth d } }

/-- Pattern::AddChild: prepend a link to the parent's child list. -/
def addChild (g : GenState) (pid cid t : Nat) : GenState :=
  let nd := getNode g pid
  { g with arena := g.arena.set pid { nd with fChild := (cid, t) :: nd.fChild } }

/-- PatternGenerator::AddHash (PatternGenerator.cxx lines 233-250): on first
use size the bucket array to 2^(fNlevels-1), then link the pattern at the
head of its hash bucket. -/
def AddHash (cfg : GenCfg) (g : GenState) (pid : Nat) : GenState :=
  let table := if g.fHashTable.length = 0
    then List.replicate (2 ^ (cfg.fNlevels - 1)) ([] : List Nat)
    else g.fHashTable
  let h := patHash (getNode g pid).bins % table.length
  { g with fHashTable := table.set h (pid :: table.getD h []) }

/-- PatternGenerator::Find (lines 395-410): walk the bucket selected by the
pattern's hash and return the first stored pattern with equal bins. -/
def Find (g : GenState) (bins : List Int) : Option Nat :=
  let bucket := g.fHashTable.getD (patHash bins % g.fHashTable.length) []
  bucket.find? (fun pid => (getNode g pid).bins == bins)

/-- PatternGenerator::TestSlope (lines 339-344).  GetWidth is read into a
UInt_t, so a negative width wraps around 2^32 (no canonical pattern has one);
accept when the width is below 2 or (width-1) over the depth's bin count is
within fMaxSlope. -/
def TestSlope (cfg : GenCfg) (bins : List Int) (depth : Nat) : Bool :=
  let w := patWidth bins
  let wU : Int := if w < 0 then 2 ^ 32 + w else w
  wU < 2 || |((wU : ℚ) - 1) / ((2 ^ depth : Nat) : ℚ)| ≤ cfg.fMaxSlope

/-- The plane loop of PatternGenerator::LineCheck (lines 363-390), running
over the intermediate plane indices in decreasing order with the left and
right band edges as state. -/
def lineCheckLoop (pat : Nat → ℚ) (z : Nat → ℚ) :
    List Nat → ℚ × ℚ × ℚ × ℚ → Bool
  | [], _ => true
  | i :: rest, (xL, xRm1, zL, zR) =>
    let dL := xL * z i - pat i * zL
    if zL ≤ |dL| then false
    else
      let dR := xRm1 * z i - pat i * zR
      if zR ≤ |dR| then false
      else
        let upR := if 1 < i ∧ 0 < dL then (pat i, z i) else (xRm1, zR)
        let upL := if 1 < i ∧ dR < 0 then (pat i, z i) else (xL, zL)
        lineCheckLoop pat z rest (upL.1, upR.1, upL.2, upR.2)

/-- PatternGenerator::LineCheck (lines 347-392), carried out exactly over the
rationals in place of Double_t: both band edges start at the last plane's bin
and the loop visits planes fNplanes-2 down to 1. -/
def LineCheck (cfg : GenCfg) (bins : List Int) : Bool :=
  let n := cfg.fZ.length
  let pat := fun i => ((bins.getD i 0 : Int) : ℚ)
  let z := fun i => cfg.fZ.getD i 0
  lineCheckLoop pat z ((List.range' 1 (n - 2)).reverse)
    (pat (n - 1), pat (n - 1), z (n - 1), z (n - 1))

/-- The body of the ChildIter loop in PatternGenerator::MakeChildNodes
(lines 428-449) for one candidate: link an existing equal pattern when the
depth or a redone slope test allows it, otherwise allocate, hash and link a
new pattern when it passes TestSlope and LineCheck. -/
def processCandidate (cfg : GenCfg) (depth pid : Nat) (g : GenState)
    (c : List Int × Nat) : GenState :=
  match Find g c.1 with
  | some nid =>
    if (getNode g nid).fMinDepth ≤ depth || TestSlope cfg c.1 depth then
      addChild g pid nid c.2
    else g
  | none =>
    if TestSlope cfg c.1 depth && LineCheck cfg c.1 then
      let nid := g.arena.length
      let g1 : GenState := { g with arena := g.arena ++ [⟨c.1, cfg.fNlevels, []⟩] }
      addChild (AddHash cfg g1 nid) pid nid c.2
    else g

/-- PatternGenerator::MakeChildNodes (lines 413-464).  The fuel only bounds
the recursion nesting (one unit per depth level): mark the parent used at
depth-1, stop at the level limit, enumerate children once if the parent has
none, then recurse into each linked child that has no children yet or was
only built from deeper in the tree. -/
def MakeChildNodes (cfg : GenCfg) : Nat → GenState → Nat → Nat → Option GenState
  | 0, _, _, _ => none
  | fuel + 1, g0, pid, depth =>
    let g1 := if 0 < depth then usedAtDepth g0 pid (depth - 1) else g0
    if cfg.fNlevels ≤ depth then some g1
    else
      let g2 := if (getNode g1 pid).fChild.isEmpty then
          (childCandidates (getNode g1 pid).bins).foldl (processCandidate cfg depth pid) g1
        else g1
      ((getNode g2 pid).fChild).foldl
        (fun og l => og.bind (fun g =>
          if (getNode g l.1).fChild.isEmpty || decide (depth < (getNode g l.1).fMinDepth)
          then MakeChildNodes cfg fuel g l.1 (depth + 1)
          else some g))
        (some g2)

/-- PatternGenerator::Generate (lines 253-306): allocate the all-zero root at
depth 0, hash it, and build recursively from depth 1. -/
def Generate (cfg : GenCfg) (fuel : Nat) : Option GenState :=
  let root : PatNode := ⟨List.replicate cfg.fZ.length 0, cfg.fNlevels, []⟩
  MakeChildNodes cfg fuel (AddHash cfg ⟨[root], []⟩ 0) 0 1

/-- Modelled from the spec: the parameter checks of PatternTree::Normalize
(PatternTree.cxx is not in src/); per spec section 6 normalization demands at
least two plane positions, strictly increasing and normalized so the first is
0 and the last is 1, a nonnegative max slope and max depth at least 1, and
Generate sets fNlevels = maxdepth + 1. -/
def ValidCfg (cfg : GenCfg) : Prop :=
  2 ≤ cfg.fNlevels ∧ 2 ≤ cfg.fZ.length ∧ cfg.fZ.Pairwise (· < ·) ∧
    cfg.fZ.headD 0 = 0 ∧ cfg.fZ.getLastD 0 = 1 ∧ 0 ≤ cfg.fMaxSlope

instance (cfg : GenCfg) : Decidable (ValidCfg cfg) :=
  inferInstanceAs (Decidable (2 ≤ cfg.fNlevels ∧ 2 ≤ cfg.fZ.length ∧
    cfg.fZ.Pairwise (· < ·) ∧ cfg.fZ.headD 0 = 0 ∧ cfg.fZ.getLastD 0 = 1 ∧
    0 ≤ cfg.fMaxSlope))

/-- A canonical pattern over n planes: n bins, first bin 0, every bin between
0 and the last bin (spec section 8 invariant 1 together with the post
canonicalization width shape). -/
def Canonical (n : Nat) (bins : List Int) : Prop :=
  bins.length = n ∧ 1 ≤ n ∧ bins.headD 0 = 0 ∧
    ∀ b ∈ bins, 0 ≤ b ∧ b ≤ bins.getLastD 0

theorem headD_eq_getElem (l : List Int) (hl : l ≠ []) :
    l.headD 0 = l.get ⟨0, List.length_pos.mpr hl⟩ := by
  cases l with
  | nil => exact absurd rfl hl
  | cons a l => rfl

theorem getLastD_eq_getElem (l : List Int) (hl : l ≠ []) :
    l.getLastD 0 = l.get ⟨l.length - 1, by
      have := List.length_pos.mpr hl
      omega⟩ := by
  rw [List.getLastD_eq_getLast?, List.getLast?_eq_getElem?,
    List.getElem?_eq_getElem (by have := List.length_pos.mpr hl; omega)]
  rfl

theorem headD_mem (l : List Int) (hl : l ≠ []) : l.headD 0 ∈ l := by
  rw [headD_eq_getElem l hl]
  exact List.getElem_mem _

theorem getLastD_mem (l : List Int) (hl : l ≠ []) : l.getLastD 0 ∈ l := by
  rw [getLastD_eq_getElem l hl]
  exact List.getElem_mem _

theorem foldl_min_le {α : Type} [LinearOrder α] (l : List α) (a : α) :
    l.foldl min a ≤ a ∧ ∀ x ∈ l, l.foldl min a ≤ x := by
  induction l generalizing a with
  | nil => simp
  | cons b l ih =>
    refine ⟨le_trans (ih (min a b)).1 (min_le_left a b), ?_⟩
    intro x hx
    rcases List.mem_cons.1 hx with rfl | hx
    · exact le_trans (ih (min a x)).1 (min_le_right a x)
    · exact (ih (min a b)).2 x hx

theorem le_foldl_min {α : Type} [LinearOrder α] (l : List α) (a y : α)
    (ha : y ≤ a) (hl : ∀ x ∈ l, y ≤ x) : y ≤ l.foldl min a := by
  induction l generalizing a with
  | nil => exact ha
  | cons b l ih =>
    exact ih (min a b) (le_min ha (hl b (List.mem_cons_self b l))) fun x hx =>
      hl x (List.mem_cons_of_mem b hx)

theorem le_foldl_max {α : Type} [LinearOrder α] (l : List α) (a : α) :
    a ≤ l.foldl max a ∧ ∀ x ∈ l, x ≤ l.foldl max a := by
  induction l generalizing a with
  | nil => simp
  | cons b l ih =>
    refine ⟨le_trans (le_max_left a b) (ih (max a b)).1, ?_⟩
    intro x hx
    rcases List.mem_cons.1 hx with rfl | hx
    · exact le_trans (le_max_right a x) (ih (max a x)).1
    · exact (ih (max a b)).2 x hx

theorem foldl_max_le {α : Type} [LinearOrder α] (l : List α) (a y : α)
    (ha : a ≤ y) (hl : ∀ x ∈ l, x ≤ y) : l.foldl max a ≤ y := by
  induction l generalizing a with
  | nil => exact ha
  | cons b l ih =>
    exact ih (max a b) (max_le ha (hl b (List.mem_cons_self b l))) fun x hx =>
      hl x (List.mem_cons_of_mem b hx)

theorem rawOf_length (parent : List Int) (sel : Nat) :
    (rawOf parent sel).length = parent.length := by
  simp [rawOf]

theorem rawOf_getElem (parent : List Int) (sel : Nat) (i : Nat)
    (hi : i < parent.length) :
    (rawOf parent sel).get ⟨i, by rw [rawOf_length]; exact hi⟩ =
      2 * parent[i] + (if sel.testBit i then 1 else 0) := by
  simp [rawOf, List.get_eq_getElem]

theorem rawOf_mem (parent : List Int) (sel : Nat) (x : Int)
    (hx : x ∈ rawOf parent sel) :
    ∃ (i : Nat) (hi : i < parent.length),
      x = 2 * parent[i] + (if sel.testBit i then 1 else 0) := by
  obtain ⟨i, hi, he⟩ := List.mem_iff_getElem.1 hx
  rw [rawOf_length] at hi
  exact ⟨i, hi, by rw [← rawOf_getElem parent sel i hi]; exact he.symm⟩

theorem rawOf_ne_nil (parent : List Int) (sel : Nat) (hp : parent ≠ []) :
    rawOf parent sel ≠ [] := by
  intro he
  have h1 := rawOf_length parent sel
  rw [he] at h1
  exact hp (List.eq_nil_of_length_eq_zero h1.symm)

theorem rawOf_headD (parent : List Int) (sel : Nat) (hp : parent ≠ []) :
    (rawOf parent sel).headD 0 =
      2 * parent.headD 0 + (if sel.testBit 0 then 1 else 0) := by
  rw [headD_eq_getElem _ (rawOf_ne_nil parent sel hp), headD_eq_getElem _ hp]
  exact rawOf_getElem parent sel 0 (List.length_pos.mpr hp)

theorem rawOf_getLastD (parent : List Int) (sel : Nat) (hp : parent ≠ []) :
    (rawOf parent sel).getLastD 0 =
      2 * parent.getLastD 0 +
        (if sel.testBit (parent.length - 1) then 1 else 0) := by
  rw [getLastD_eq_getElem _ (rawOf_ne_nil parent sel hp), getLastD_eq_getElem _ hp]
  have hlt : parent.length - 1 < parent.length := by
    have := List.length_pos.mpr hp
    omega
  have := rawOf_getElem parent sel (parent.length - 1) hlt
  simpa [rawOf_length] using this

theorem headD_map_int (f : Int → Int) (l : List Int) (hl : l ≠ []) :
    (l.map f).headD 0 = f (l.headD 0) := by
  cases l with
  | nil => exact absurd rfl hl
  | cons a l => rfl

theorem getLastD_map_int (f : Int → Int) (l : List Int) (hl : l ≠ []) :
    (l.map f).getLastD 0 = f (l.getLastD 0) := by
  rw [List.getLastD_eq_getLast?, List.getLast?_map, List.getLastD_eq_getLast?]
  cases hgl : l.getLast? with
  | none => exact absurd (List.getLast?_eq_none_iff.1 hgl) hl
  | some y => rfl

/-- Each admissible child of a canonical parent is canonical, its type tag is
at most 2, and a mirror tag forces the parent to be the all-zero root
pattern. -/
theorem childAt_spec (parent : List Int) (n sel : Nat) (c : List Int) (t : Nat)
    (hpar : Canonical n parent) (h : childAt parent sel = some (c, t)) :
    Canonical n c ∧ t ≤ 2 ∧ (2 ≤ t → parent = List.replicate n 0) := by
  obtain ⟨hlen, hn, hhead, hbnds⟩ := hpar
  have hpne : parent ≠ [] := by
    intro he
    rw [he] at hlen
    simp at hlen
    omega
  have hrne : rawOf parent sel ≠ [] := rawOf_ne_nil parent sel hpne
  simp only [childAt] at h
  set raw := rawOf parent sel with hraweq
  set m := raw.foldl min 1 with hmeq
  set M := raw.foldl max 0 with hMeq
  have hnonneg : ∀ x ∈ raw, 0 ≤ x := by
    intro x hx
    obtain ⟨i, hi, he⟩ := rawOf_mem parent sel x hx
    have hp := (hbnds parent[i] (List.getElem_mem hi)).1
    rw [he]
    split <;> omega
  have hm_le : ∀ x ∈ raw, m ≤ x := (foldl_min_le raw 1).2
  have hm0 : 0 ≤ m := le_foldl_min raw 1 0 (by norm_num) hnonneg
  have hM_ge : ∀ x ∈ raw, x ≤ M := (le_foldl_max raw 0).2
  have hhr : raw.headD 0 = (if sel.testBit 0 then 1 else 0) := by
    rw [hraweq, rawOf_headD parent sel hpne, hhead]
    ring_nf
  have hh01 : raw.headD 0 = 0 ∨ raw.headD 0 = 1 := by
    rw [hhr]
    split <;> simp
  have hmh : m ≤ raw.headD 0 := hm_le _ (headD_mem raw hrne)
  have hhM : raw.headD 0 ≤ M := hM_ge _ (headD_mem raw hrne)
  have hml : m ≤ raw.getLastD 0 := hm_le _ (getLastD_mem raw hrne)
  have hlM : raw.getLastD 0 ≤ M := hM_ge _ (getLastD_mem raw hrne)
  have hwdef : patWidth raw = raw.getLastD 0 - raw.headD 0 := rfl
  -- the admissibility test passed
  rcases lt_or_ge (|patWidth raw|) (M - m) with hadm | hadm
  · rw [if_pos hadm] at h
    exact absurd h (by simp)
  rw [if_neg (not_lt.mpr hadm)] at h
  have habs : |patWidth raw| ≤ M - m := by
    rw [hwdef, abs_sub_le_iff]
    omega
  have heq : |patWidth raw| = M - m := le_antisymm habs hadm
  rcases lt_or_ge (patWidth raw) 0 with hwneg | hwpos
  · -- mirrored case: the raw head is the maximum, the last bit the minimum
    have habs2 : raw.headD 0 - raw.getLastD 0 = M - m := by
      rw [← heq, hwdef, abs_of_neg (by omega : raw.getLastD 0 - raw.headD 0 < 0)]
      ring
    have hhM2 : raw.headD 0 = M := by omega
    have hlm2 : raw.getLastD 0 = m := by omega
    have hM1 : M = 1 ∧ m = 0 := by
      rcases hh01 with h0 | h1
      · omega
      · constructor <;> omega
    have hmz : m = 0 := hM1.2
    rw [if_pos hwneg, if_pos hmz] at h
    simp only [Option.some.injEq, Prod.mk.injEq] at h
    obtain ⟨hc, ht⟩ := h
    have hwm1 : patWidth raw = -1 := by omega
    have hparz : parent = List.replicate n 0 := by
      rw [List.eq_replicate_iff]
      refine ⟨hlen, fun b hb => ?_⟩
      obtain ⟨i, hi, hbe⟩ := List.mem_iff_getElem.1 hb
      have hri : (2 * parent[i] + (if sel.testBit i then 1 else 0)) ∈ raw := by
        rw [hraweq, ← rawOf_getElem parent sel i hi]
        exact List.getElem_mem _
      have h1 := hM_ge _ hri
      have h2 := (hbnds parent[i] (List.getElem_mem hi)).1
      rw [← hbe]
      rw [hM1.1] at h1
      split at h1 <;> omega
    refine ⟨?_, by omega, fun _ => hparz⟩
    refine ⟨?_, hn, ?_, ?_⟩
    · rw [← hc]
      rw [List.length_map, hraweq, rawOf_length]
      exact hlen
    · have hhd : (raw.map (fun b => -patWidth raw - b)).headD 0 =
          -patWidth raw - raw.headD 0 := headD_map_int _ raw hrne
      rw [← hc, hhd]
      omega
    · intro b hb
      rw [← hc] at hb
      obtain ⟨x, hx, hxe⟩ := List.mem_map.1 hb
      have hx1 := hm_le x hx
      have hx2 := hM_ge x hx
      have hlast : (raw.map (fun b => -patWidth raw - b)).getLastD 0 =
          -patWidth raw - raw.getLastD 0 := getLastD_map_int _ raw hrne
      rw [← hc, hlast, hwm1, hlm2, hmz, ← hxe]
      constructor <;> omega
  · -- unmirrored case: the raw head is the minimum, the last bit the maximum
    have habs2 : raw.getLastD 0 - raw.headD 0 = M - m := by
      rw [← heq, hwdef, abs_of_nonneg (by omega : (0:Int) ≤ raw.getLastD 0 - raw.headD 0)]
    have hhm2 : raw.headD 0 = m := by omega
    have hlM2 : raw.getLastD 0 = M := by omega
    rw [if_neg (not_lt.mpr hwpos)] at h
    rcases eq_or_ne m 0 with hmz | hmnz
    · -- no shift: the child is the raw vector itself
      rw [if_pos hmz] at h
      simp only [Option.some.injEq, Prod.mk.injEq] at h
      obtain ⟨hc, ht⟩ := h
      refine ⟨?_, by omega, by omega⟩
      refine ⟨by rw [← hc, hraweq, rawOf_length]; exact hlen, hn, ?_, ?_⟩
      · rw [← hc, hhm2, hmz]
      · intro b hb
        rw [← hc] at hb
        rw [← hc, hlM2]
        exact ⟨by rw [← hmz]; exact hm_le b hb, hM_ge b hb⟩
    · -- shift: the minimum bit is 1 and every bit is lowered by one
      have hm1 : m = 1 := by
        rcases hh01 with h0 | h1 <;> omega
      rw [if_neg hmnz] at h
      simp only [Option.some.injEq, Prod.mk.injEq] at h
      obtain ⟨hc, ht⟩ := h
      have hlast : (raw.map (fun b => b - 1)).getLastD 0 = raw.getLastD 0 - 1 :=
        getLastD_map_int _ raw hrne
      refine ⟨?_, by omega, by omega⟩
      refine ⟨by rw [← hc, List.length_map, hraweq, rawOf_length]; exact hlen, hn, ?_, ?_⟩
      · have hhd : (raw.map (fun b => b - 1)).headD 0 = raw.headD 0 - 1 :=
          headD_map_int _ raw hrne
        rw [← hc, hhd]
        omega
      · intro b hb
        rw [← hc] at hb
        obtain ⟨x, hx, hxe⟩ := List.mem_map.1 hb
        have hx1 := hm_le x hx
        have hx2 := hM_ge x hx
        rw [← hc, hlast, hlM2, ← hxe]
        constructor <;> omega

theorem getNode_bins_set_fields (g : GenState) (p q : Nat) (nd : PatNode)
    (hb : nd.bins = (getNode g p).bins) :
    (getNode { g with arena := g.arena.set p nd } q).bins = (getNode g q).bins := by
  rcases eq_or_ne q p with rfl | hne
  · rcases Nat.lt_or_ge q g.arena.length with hlt | hge
    · simp [getNode, List.getD, List.getElem?_set_self hlt, hb]
    · rw [List.set_eq_of_length_le hge]
  · simp [getNode, List.getD, List.getElem?_set_ne (Ne.symm hne)]

theorem getNode_set_ne (g : GenState) (p q : Nat) (nd : PatNode) (hne : q ≠ p) :
    getNode { g with arena := g.arena.set p nd } q = getNode g q := by
  simp [getNode, List.getD, List.getElem?_set_ne (Ne.symm hne)]

theorem getNode_set_self (g : GenState) (p : Nat) (nd : PatNode)
    (hp : p < g.arena.length) :
    getNode { g with arena := g.arena.set p nd } p = nd := by
  simp [getNode, List.getD, List.getElem?_set_self hp]

theorem getNode_append_lt (g : GenState) (q : Nat) (nd : PatNode)
    (hq : q < g.arena.length) :
    getNode { g with arena := g.arena ++ [nd] } q = getNode g q := by
  simp [getNode, List.getD, List.getElem?_append_left hq]

theorem getNode_append_self (g : GenState) (nd : PatNode) :
    getNode { g with arena := g.arena ++ [nd] } g.arena.length = nd := by
  simp [getNode, List.getD, List.getElem?_concat_length]

theorem usedAtDepth_arena_length (g : GenState) (p d : Nat) :
    (usedAtDepth g p d).arena.length = g.arena.length := by
  simp [usedAtDepth]

theorem usedAtDepth_table (g : GenState) (p d : Nat) :
    (usedAtDepth g p d).fHashTable = g.fHashTable := rfl

theorem getNode_usedAtDepth_bins (g : GenState) (p d q : Nat) :
    (getNode (usedAtDepth g p d) q).bins = (getNode g q).bins :=
  getNode_bins_set_fields g p q _ rfl

theorem getNode_usedAtDepth_fChild (g : GenState) (p d q : Nat) :
    (getNode (usedAtDepth g p d) q).fChild = (getNode g q).fChild := by
  simp only [usedAtDepth]
  rcases eq_or_ne q p with rfl | hne
  · rcases Nat.lt_or_ge q g.arena.length with hlt | hge
    · simp [getNode, List.getD, List.getElem?_set_self hlt]
    · rw [List.set_eq_of_length_le hge]
  · simp [getNode, List.getD, List.getElem?_set_ne (Ne.symm hne)]

theorem addChild_arena_length (g : GenState) (p cid t : Nat) :
    (addChild g p cid t).arena.length = g.arena.length := by
  simp [addChild]

theorem addChild_table (g : GenState) (p cid t : Nat) :
    (addChild g p cid t).fHashTable = g.fHashTable := rfl

theorem getNode_addChild_bins (g : GenState) (p cid t q : Nat) :
    (getNode (addChild g p cid t) q).bins = (getNode g q).bins :=
  getNode_bins_set_fields g p q _ rfl

theorem getNode_addChild_self (g : GenState) (p cid t : Nat)
    (hp : p < g.arena.length) :
    (getNode (addChild g p cid t) p).fChild = (cid, t) :: (getNode g p).fChild := by
  simp only [addChild]
  rw [getNode_set_self g p _ hp]

theorem getNode_addChild_ne (g : GenState) (p cid t q : Nat) (hne : q ≠ p) :
    getNode (addChild g p cid t) q = getNode g q :=
  getNode_set_ne g p q _ hne

theorem AddHash_arena (cfg : GenCfg) (g : GenState) (pid : Nat) :
    (AddHash cfg g pid).arena = g.arena := rfl

theorem getNode_AddHash (cfg : GenCfg) (g : GenState) (pid q : Nat) :
    getNode (AddHash cfg g pid) q = getNode g q := rfl

/-- One generator state extends another: the arena only grows and existing
patterns keep their bins. -/
def Extends (g g2 : GenState) : Prop :=
  g.arena.length ≤ g2.arena.length ∧
    ∀ pid, pid < g.arena.length → (getNode g2 pid).bins = (getNode g pid).bins

theorem extends_refl (g : GenState) : Extends g g := ⟨le_refl _, fun _ _ => rfl⟩

theorem extends_trans {g1 g2 g3 : GenState} (h1 : Extends g1 g2)
    (h2 : Extends g2 g3) : Extends g1 g3 :=
  ⟨le_trans h1.1 h2.1, fun pid hp => (h2.2 pid (lt_of_lt_of_le hp h1.1)).trans (h1.2 pid hp)⟩

/-- The hash-consing invariant of a generator state: at least the root is
allocated and all-zero, every pattern is canonical, bins are pairwise
distinct, the bucket array has its final size and holds every pattern in the
bucket of its own hash, child links stay inside the arena with type tags at
most 2 and mirror tags only under all-zero parents, and every non-root
pattern passed LineCheck on insertion. -/
structure GenInv (cfg : GenCfg) (g : GenState) : Prop where
  arena_pos : 1 ≤ g.arena.length
  root_bins : (getNode g 0).bins = List.replicate cfg.fZ.length 0
  canon : ∀ pid, pid < g.arena.length → Canonical cfg.fZ.length (getNode g pid).bins
  distinct : ∀ i j, i < g.arena.length → j < g.arena.length → i ≠ j →
    (getNode g i).bins ≠ (getNode g j).bins
  table_size : g.fHashTable.length = 2 ^ (cfg.fNlevels - 1)
  in_table : ∀ pid, pid < g.arena.length →
    pid ∈ g.fHashTable.getD (patHash (getNode g pid).bins % g.fHashTable.length) []
  bucket_ok : ∀ k, k < g.fHashTable.length → ∀ pid ∈ g.fHashTable.getD k [],
    pid < g.arena.length ∧ patHash (getNode g pid).bins % g.fHashTable.length = k
  links : ∀ pid, pid < g.arena.length → ∀ l ∈ (getNode g pid).fChild,
    l.1 < g.arena.length ∧ l.2 ≤ 2 ∧
      (l.2 = 2 → (getNode g pid).bins = List.replicate cfg.fZ.length 0)
  line_ok : ∀ pid, 1 ≤ pid → pid < g.arena.length →
    LineCheck cfg (getNode g pid).bins = true

/-- A successful Find returns a stored pattern with exactly the sought bins. -/
theorem find_some {cfg : GenCfg} {g : GenState} (inv : GenInv cfg g)
    {bins : List Int} {nid : Nat} (h : Find g bins = some nid) :
    nid < g.arena.length ∧ (getNode g nid).bins = bins := by
  unfold Find at h
  have hmem := List.mem_of_find?_eq_some h
  have hpred := List.find?_some h
  have hbins : (getNode g nid).bins = bins := by
    exact eq_of_beq hpred
  have hlen0 : 0 < g.fHashTable.length := by
    rcases Nat.eq_zero_or_pos g.fHashTable.length with h0 | h0
    · rw [List.length_eq_zero] at h0
      rw [h0] at hmem
      simp at hmem
    · exact h0
  have hk : patHash bins % g.fHashTable.length < g.fHashTable.length :=
    Nat.mod_lt _ hlen0
  exact ⟨(inv.bucket_ok _ hk nid hmem).1, hbins⟩

/-- A failed Find means no stored pattern has the sought bins. -/
theorem find_none {cfg : GenCfg} {g : GenState} (inv : GenInv cfg g)
    {bins : List Int} (h : Find g bins = none) :
    ∀ pid, pid < g.arena.length → (getNode g pid).bins ≠ bins := by
  intro pid hpid heq
  unfold Find at h
  have hmem := inv.in_table pid hpid
  rw [heq] at hmem
  have := List.find?_eq_none.1 h pid hmem
  rw [heq] at this
  simp at this

theorem extends_usedAtDepth (g : GenState) (p d : Nat) :
    Extends g (usedAtDepth g p d) :=
  ⟨le_of_eq (usedAtDepth_arena_length g p d).symm,
    fun pid _ => getNode_usedAtDepth_bins g p d pid⟩

theorem extends_addChild (g : GenState) (p cid t : Nat) :
    Extends g (addChild g p cid t) :=
  ⟨le_of_eq (addChild_arena_length g p cid t).symm,
    fun pid _ => getNode_addChild_bins g p cid t pid⟩

theorem genInv_usedAtDepth {cfg : GenCfg} {g : GenState} (inv : GenInv cfg g)
    (p d : Nat) : GenInv cfg (usedAtDepth g p d) := by
  constructor
  · rw [usedAtDepth_arena_length]
    exact inv.arena_pos
  · rw [getNode_usedAtDepth_bins]
    exact inv.root_bins
  · intro pid hp
    rw [usedAtDepth_arena_length] at hp
    rw [getNode_usedAtDepth_bins]
    exact inv.canon pid hp
  · intro i j hi hj hne
    rw [usedAtDepth_arena_length] at hi hj
    rw [getNode_usedAtDepth_bins, getNode_usedAtDepth_bins]
    exact inv.distinct i j hi hj hne
  · rw [usedAtDepth_table]
    exact inv.table_size
  · intro pid hp
    rw [usedAtDepth_arena_length] at hp
    rw [usedAtDepth_table, getNode_usedAtDepth_bins]
    exact inv.in_table pid hp
  · intro k hk pid hmem
    rw [usedAtDepth_table] at hk hmem
    rw [usedAtDepth_arena_length, usedAtDepth_table, getNode_usedAtDepth_bins]
    exact inv.bucket_ok k hk pid hmem
  · intro pid hp l hl
    rw [usedAtDepth_arena_length] at hp
    rw [getNode_usedAtDepth_fChild] at hl
    rw [usedAtDepth_arena_length, getNode_usedAtDepth_bins]
    exact inv.links pid hp l hl
  · intro pid h1 hp
    rw [usedAtDepth_arena_length] at hp
    rw [getNode_usedAtDepth_bins]
    exact inv.line_ok pid h1 hp

theorem genInv_addChild {cfg : GenCfg} {g : GenState} (inv : GenInv cfg g)
    {p cid t : Nat} (hp : p < g.arena.length) (hcid : cid < g.arena.length)
    (ht : t ≤ 2)
    (h2 : t = 2 → (getNode g p).bins = List.replicate cfg.fZ.length 0) :
    GenInv cfg (addChild g p cid t) := by
  constructor
  · rw [addChild_arena_length]
    exact inv.arena_pos
  · rw [getNode_addChild_bins]
    exact inv.root_bins
  · intro pid hpl
    rw [addChild_arena_length] at hpl
    rw [getNode_addChild_bins]
    exact inv.canon pid hpl
  · intro i j hi hj hne
    rw [addChild_arena_length] at hi hj
    rw [getNode_addChild_bins, getNode_addChild_bins]
    exact inv.distinct i j hi hj hne
  · rw [addChild_table]
    exact inv.table_size
  · intro pid hpl
    rw [addChild_arena_length] at hpl
    rw [addChild_table, getNode_addChild_bins]
    exact inv.in_table pid hpl
  · intro k hk pid hmem
    rw [addChild_table] at hk hmem
    rw [addChild_arena_length, addChild_table, getNode_addChild_bins]
    exact inv.bucket_ok k hk pid hmem
  · intro pid hpl l hl
    rw [addChild_arena_length] at hpl
    rw [addChild_arena_length, getNode_addChild_bins]
    rcases eq_or_ne pid p with rfl | hne
    · rw [getNode_addChild_self g pid cid t hp] at hl
      rcases List.mem_cons.1 hl with rfl | hl
      · exact ⟨hcid, ht, h2⟩
      · exact inv.links pid hpl l hl
    · rw [getNode_addChild_ne g p cid t pid hne] at hl
      exact inv.links pid hpl l hl
  · intro pid h1 hpl
    rw [addChild_arena_length] at hpl
    rw [getNode_addChild_bins]
    exact inv.line_ok pid h1 hpl

theorem getD_set_self (l : List (List Nat)) (i : Nat) (x : List Nat)
    (hi : i < l.length) : (l.set i x).getD i [] = x := by
  simp [List.getD, List.getElem?_set_self hi]

theorem getD_set_ne (l : List (List Nat)) (i j : Nat) (x : List Nat)
    (h : j ≠ i) : (l.set i x).getD j [] = l.getD j [] := by
  simp [List.getD, List.getElem?_set_ne (Ne.symm h)]

theorem AddHash_nonempty (cfg : GenCfg) (g : GenState) (pid : Nat)
    (h0 : ¬ g.fHashTable.length = 0) :
    AddHash cfg g pid =
      { g with
        fHashTable := g.fHashTable.set
          (patHash (getNode g pid).bins % g.fHashTable.length)
          (pid :: g.fHashTable.getD
            (patHash (getNode g pid).bins % g.fHashTable.length) []) } := by
  simp only [AddHash, if_neg h0]

/-- Inserting a fresh canonical pattern that Find could not locate and that
passed LineCheck preserves the generator invariant. -/
theorem genInv_push_hash {cfg : GenCfg} {g : GenState} (inv : GenInv cfg g)
    (c : List Int) (d0 : Nat) (hcan : Canonical cfg.fZ.length c)
    (hfind : Find g c = none) (hline : LineCheck cfg c = true) :
    GenInv cfg (AddHash cfg { g with arena := g.arena ++ [(⟨c, d0, []⟩ : PatNode)] }
      g.arena.length) := by
  have htpos : 0 < g.fHashTable.length := by
    rw [inv.table_size]
    positivity
  set g1 : GenState := { g with arena := g.arena ++ [(⟨c, d0, []⟩ : PatNode)] }
    with hg1
  have hg1t : g1.fHashTable = g.fHashTable := rfl
  have hg1len : g1.arena.length = g.arena.length + 1 := by
    simp [hg1]
  have hbinc : (getNode g1 g.arena.length).bins = c := by
    have := getNode_append_self g (⟨c, d0, []⟩ : PatNode)
    rw [← hg1] at this
    rw [this]
  have hchc : (getNode g1 g.arena.length).fChild = [] := by
    have := getNode_append_self g (⟨c, d0, []⟩ : PatNode)
    rw [← hg1] at this
    rw [this]
  have hgets : ∀ q, q < g.arena.length → getNode g1 q = getNode g q := by
    intro q hq
    have := getNode_append_lt g q (⟨c, d0, []⟩ : PatNode) hq
    rw [← hg1] at this
    exact this
  rw [AddHash_nonempty cfg g1 g.arena.length (by rw [hg1t]; omega)]
  rw [hg1t, hbinc]
  set h := patHash c % g.fHashTable.length with hh
  have hhlt : h < g.fHashTable.length := Nat.mod_lt _ htpos
  set R : GenState :=
    { g1 with
      fHashTable := g.fHashTable.set h
        (g.arena.length :: g.fHashTable.getD h []) } with hR
  have hRnode : ∀ q, getNode R q = getNode g1 q := fun _ => rfl
  have hRlen : R.arena.length = g.arena.length + 1 := hg1len
  have hRt : R.fHashTable = g.fHashTable.set h
      (g.arena.length :: g.fHashTable.getD h []) := rfl
  have hRtlen : R.fHashTable.length = g.fHashTable.length := by
    rw [hRt, List.length_set]
  constructor
  · rw [hRlen]
    omega
  · rw [hRnode, hgets 0 inv.arena_pos]
    exact inv.root_bins
  · intro pid hp
    rw [hRlen] at hp
    rw [hRnode]
    rcases Nat.lt_or_ge pid g.arena.length with hlt | hge
    · rw [hgets pid hlt]
      exact inv.canon pid hlt
    · have hpe : pid = g.arena.length := by omega
      rw [hpe, hbinc]
      exact hcan
  · intro i j hi hj hne
    rw [hRlen] at hi hj
    rw [hRnode, hRnode]
    rcases Nat.lt_or_ge i g.arena.length with hilt | hige <;>
      rcases Nat.lt_or_ge j g.arena.length with hjlt | hjge
    · rw [hgets i hilt, hgets j hjlt]
      exact inv.distinct i j hilt hjlt hne
    · have hj2 : j = g.arena.length := by omega
      rw [hgets i hilt, hj2, hbinc]
      exact find_none inv hfind i hilt
    · have hi2 : i = g.arena.length := by omega
      rw [hgets j hjlt, hi2, hbinc]
      intro he
      exact find_none inv hfind j hjlt he.symm
    · omega
  · rw [hRtlen]
    exact inv.table_size
  · intro pid hp
    rw [hRlen] at hp
    rw [hRnode, hRtlen, hRt]
    rcases Nat.lt_or_ge pid g.arena.length with hlt | hge
    · rw [hgets pid hlt]
      rcases eq_or_ne (patHash (getNode g pid).bins % g.fHashTable.length) h
        with he | hne
      · rw [he, getD_set_self _ _ _ hhlt]
        refine List.mem_cons_of_mem _ ?_
        rw [← he]
        exact inv.in_table pid hlt
      · rw [getD_set_ne _ _ _ _ hne]
        exact inv.in_table pid hlt
    · have hpe : pid = g.arena.length := by omega
      rw [hpe, hbinc, ← hh, getD_set_self _ _ _ hhlt]
      exact List.mem_cons_self _ _
  · intro k hk pid hmem
    rw [hRtlen] at hk
    rw [hRt] at hmem
    rw [hRnode, hRlen, hRtlen]
    rcases eq_or_ne k h with rfl | hne
    · rw [getD_set_self _ _ _ hhlt] at hmem
      rcases List.mem_cons.1 hmem with rfl | hmem
      · rw [hbinc]
        exact ⟨by omega, hh.symm⟩
      · have hold := inv.bucket_ok h hk pid hmem
        rw [hgets pid hold.1]
        exact ⟨by omega, hold.2⟩
    · rw [getD_set_ne _ _ _ _ hne] at hmem
      have hold := inv.bucket_ok k hk pid hmem
      rw [hgets pid hold.1]
      exact ⟨by omega, hold.2⟩
  · intro pid hp l hl
    rw [hRlen] at hp
    rw [hRnode] at hl
    rw [hRnode, hRlen]
    rcases Nat.lt_or_ge pid g.arena.length with hlt | hge
    · rw [hgets pid hlt] at hl ⊢
      have := inv.links pid hlt l hl
      exact ⟨by omega, this.2.1, this.2.2⟩
    · have hpe : pid = g.arena.length := by omega
      rw [hpe, hchc] at hl
      simp at hl
  · intro pid h1 hp
    rw [hRlen] at hp
    rw [hRnode]
    rcases Nat.lt_or_ge pid g.arena.length with hlt | hge
    · rw [hgets pid hlt]
      exact inv.line_ok pid h1 hlt
    · have hpe : pid = g.arena.length := by omega
      rw [hpe, hbinc]
      exact hline

theorem extends_push_hash (cfg : GenCfg) (g : GenState) (c : List Int) (d0 : Nat) :
    Extends g (AddHash cfg { g with arena := g.arena ++ [(⟨c, d0, []⟩ : PatNode)] }
      g.arena.length) := by
  constructor
  · rw [AddHash_arena]
    simp
  · intro pid hp
    rw [getNode_AddHash]
    have := getNode_append_lt g pid (⟨c, d0, []⟩ : PatNode) hp
    rw [this]

/-- One ChildIter candidate step of MakeChildNodes preserves the invariant
and only extends the state. -/
theorem genInv_processCandidate {cfg : GenCfg} {g : GenState} (inv : GenInv cfg g)
    (depth : Nat) {pid : Nat} (hp : pid < g.arena.length) (c : List Int) (t : Nat)
    (hcan : Canonical cfg.fZ.length c) (ht : t ≤ 2)
    (h2 : t = 2 → (getNode g pid).bins = List.replicate cfg.fZ.length 0) :
    GenInv cfg (processCandidate cfg depth pid g (c, t)) ∧
      Extends g (processCandidate cfg depth pid g (c, t)) := by
  unfold processCandidate
  split
  next nid hf =>
    obtain ⟨hnid, hbins⟩ := find_some inv hf
    split
    · exact ⟨genInv_addChild inv hp hnid ht h2, extends_addChild g pid nid t⟩
    · exact ⟨inv, extends_refl g⟩
  next hf =>
    split
    next hcond =>
      have hline : LineCheck cfg c = true := by
        rw [Bool.and_eq_true] at hcond
        exact hcond.2
      have invP := genInv_push_hash inv c cfg.fNlevels hcan hf hline
      have extP := extends_push_hash cfg g c cfg.fNlevels
      set gP := AddHash cfg { g with arena := g.arena ++ [(⟨c, cfg.fNlevels, []⟩ : PatNode)] }
        g.arena.length with hgP
      have hlenP : gP.arena.length = g.arena.length + 1 := by
        rw [hgP, AddHash_arena]
        simp
      have hpP : pid < gP.arena.length := by omega
      have hnidP : g.arena.length < gP.arena.length := by omega
      have hbp : (getNode gP pid).bins = (getNode g pid).bins := extP.2 pid hp
      refine ⟨genInv_addChild invP hpP hnidP ht ?_, extends_trans extP
        (extends_addChild gP pid g.arena.length t)⟩
      intro he
      rw [hbp]
      exact h2 he
    next => exact ⟨inv, extends_refl g⟩

/-- Folding the whole candidate list preserves the invariant. -/
theorem genInv_foldCands {cfg : GenCfg} (depth pid : Nat) :
    ∀ (cs : List (List Int × Nat)) (g : GenState), GenInv cfg g →
      pid < g.arena.length →
      (∀ p ∈ cs, Canonical cfg.fZ.length p.1 ∧ p.2 ≤ 2 ∧
        (2 ≤ p.2 → (getNode g pid).bins = List.replicate cfg.fZ.length 0)) →
      GenInv cfg (cs.foldl (processCandidate cfg depth pid) g) ∧
        Extends g (cs.foldl (processCandidate cfg depth pid) g) := by
  intro cs
  induction cs with
  | nil => exact fun g inv _ _ => ⟨inv, extends_refl g⟩
  | cons c cs ih =>
    intro g inv hp hprop
    have hc := hprop c (List.mem_cons_self c cs)
    have step := genInv_processCandidate inv depth hp c.1 c.2 hc.1 hc.2.1
      (fun he => hc.2.2 (by omega))
    obtain ⟨inv2, ext2⟩ := step
    have hp2 : pid < (processCandidate cfg depth pid g c).arena.length :=
      lt_of_lt_of_le hp ext2.1
    have hprop2 : ∀ p ∈ cs, Canonical cfg.fZ.length p.1 ∧ p.2 ≤ 2 ∧
        (2 ≤ p.2 → (getNode (processCandidate cfg depth pid g c) pid).bins =
          List.replicate cfg.fZ.length 0) := by
      intro p hpm
      have := hprop p (List.mem_cons_of_mem c hpm)
      exact ⟨this.1, this.2.1, fun hge => by rw [ext2.2 pid hp]; exact this.2.2 hge⟩
    obtain ⟨inv3, ext3⟩ := ih (processCandidate cfg depth pid g c) inv2 hp2 hprop2
    exact ⟨inv3, extends_trans ext2 ext3⟩

theorem foldl_bind_none (f : GenState → Nat × Nat → Option GenState)
    (ls : List (Nat × Nat)) :
    ls.foldl (fun og l => og.bind (fun gg => f gg l)) none = none := by
  induction ls with
  | nil => rfl
  | cons l ls ih => simpa using ih

/-- Walking a child-link list with an invariant- and extension-preserving
step keeps the invariant. -/
theorem walk_fold {cfg : GenCfg} (f : GenState → Nat × Nat → Option GenState)
    (hf : ∀ gs l g2, GenInv cfg gs → l.1 < gs.arena.length → f gs l = some g2 →
      GenInv cfg g2 ∧ Extends gs g2) :
    ∀ (ls : List (Nat × Nat)) (gs : GenState) (g2 : GenState), GenInv cfg gs →
      (∀ l ∈ ls, l.1 < gs.arena.length) →
      ls.foldl (fun og l => og.bind (fun gg => f gg l)) (some gs) = some g2 →
      GenInv cfg g2 ∧ Extends gs g2 := by
  intro ls
  induction ls with
  | nil =>
    intro gs g2 inv _ h
    simp at h
    rw [← h]
    exact ⟨inv, extends_refl gs⟩
  | cons l ls ih =>
    intro gs g2 inv hls h
    rw [List.foldl_cons] at h
    cases hstep : (some gs).bind (fun gg => f gg l) with
    | none =>
      rw [hstep] at h
      exact absurd h (by rw [foldl_bind_none]; simp)
    | some gm =>
      rw [hstep] at h
      simp only [Option.some_bind] at hstep
      have hm := hf gs l gm inv (hls l (List.mem_cons_self l ls)) hstep
      have hrest : ∀ x ∈ ls, x.1 < gm.arena.length := fun x hx =>
        lt_of_lt_of_le (hls x (List.mem_cons_of_mem l hx)) hm.2.1
      obtain ⟨inv2, ext2⟩ := ih gm g2 hm.1 hrest h
      exact ⟨inv2, extends_trans hm.2 ext2⟩

/-- MakeChildNodes preserves the generator invariant and only extends the
state. -/
theorem genInv_MakeChildNodes {cfg : GenCfg} :
    ∀ (fuel : Nat) (g : GenState) (pid depth : Nat) (g2 : GenState),
      GenInv cfg g → pid < g.arena.length →
      MakeChildNodes cfg fuel g pid depth = some g2 →
      GenInv cfg g2 ∧ Extends g g2 := by
  intro fuel
  induction fuel with
  | zero =>
    intro g pid depth g2 _ _ h
    exact absurd h (by simp [MakeChildNodes])
  | succ fuel ih =>
    intro g pid depth g2 inv hp h
    simp only [MakeChildNodes] at h
    set gA := if 0 < depth then usedAtDepth g pid (depth - 1) else g with hgA
    have invA : GenInv cfg gA := by
      rw [hgA]
      split
      · exact genInv_usedAtDepth inv pid (depth - 1)
      · exact inv
    have extA : Extends g gA := by
      rw [hgA]
      split
      · exact extends_usedAtDepth g pid (depth - 1)
      · exact extends_refl g
    have hpA : pid < gA.arena.length := lt_of_lt_of_le hp extA.1
    by_cases hdep : cfg.fNlevels ≤ depth
    · rw [if_pos hdep] at h
      simp only [Option.some.injEq] at h
      rw [← h]
      exact ⟨invA, extA⟩
    · rw [if_neg hdep] at h
      set gB := if (getNode gA pid).fChild.isEmpty then
          (childCandidates (getNode gA pid).bins).foldl
            (processCandidate cfg depth pid) gA
        else gA with hgB
      have hstepB : GenInv cfg gB ∧ Extends gA gB := by
        by_cases hemp : (getNode gA pid).fChild.isEmpty = true
        · rw [hgB, if_pos hemp]
          apply genInv_foldCands depth pid _ gA invA hpA
          intro p hpm
          obtain ⟨sel, _, hsel⟩ := List.mem_filterMap.1 hpm
          have := childAt_spec (getNode gA pid).bins cfg.fZ.length sel p.1 p.2
            (invA.canon pid hpA) (by rw [hsel])
          exact this
        · rw [hgB, if_neg hemp]
          exact ⟨invA, extends_refl gA⟩
      obtain ⟨invB, extB⟩ := hstepB
      have hpB : pid < gB.arena.length := lt_of_lt_of_le hpA extB.1
      have hwalk := walk_fold
        (fun gg l => if (getNode gg l.1).fChild.isEmpty ||
            decide (depth < (getNode gg l.1).fMinDepth)
          then MakeChildNodes cfg fuel gg l.1 (depth + 1)
          else some gg)
        (by
          intro gs l gw invs hls hstep
          simp only [] at hstep
          split at hstep
          · exact ih gs l.1 (depth + 1) gw invs hls hstep
          · simp only [Option.some.injEq] at hstep
            rw [← hstep]
            exact ⟨invs, extends_refl gs⟩)
        ((getNode gB pid).fChild) gB g2 invB
        (fun l hl => (invB.links pid hpB l hl).1) h
      exact ⟨hwalk.1, extends_trans extA (extends_trans extB hwalk.2)⟩

theorem getD_replicate_nil (n k : Nat) :
    (List.replicate n ([] : List Nat)).getD k [] = [] := by
  induction n generalizing k with
  | zero => cases k <;> rfl
  | succ n ih =>
    cases k with
    | zero => rfl
    | succ k => exact ih k

theorem headD_replicate_zero (n : Nat) (hn : 1 ≤ n) :
    (List.replicate n (0 : Int)).headD 0 = 0 := by
  cases n with
  | zero => omega
  | succ n => rfl

theorem getLastD_replicate_zero (n : Nat) :
    (List.replicate n (0 : Int)).getLastD 0 = 0 := by
  induction n with
  | zero => rfl
  | succ n ih =>
    rw [List.replicate_succ, List.getLastD_cons]
    exact ih

theorem canonical_replicate_zero (n : Nat) (hn : 1 ≤ n) :
    Canonical n (List.replicate n (0 : Int)) := by
  refine ⟨List.length_replicate n 0, hn, headD_replicate_zero n hn, ?_⟩
  intro b hb
  have hb0 := List.eq_of_mem_replicate hb
  rw [hb0, getLastD_replicate_zero]
  exact ⟨le_refl 0, le_refl 0⟩

theorem AddHash_empty (cfg : GenCfg) (g : GenState) (pid : Nat)
    (h0 : g.fHashTable.length = 0) :
    AddHash cfg g pid =
      { g with
        fHashTable := (List.replicate (2 ^ (cfg.fNlevels - 1)) ([] : List Nat)).set
          (patHash (getNode g pid).bins % 2 ^ (cfg.fNlevels - 1)) [pid] } := by
  simp only [AddHash, if_pos h0, List.length_replicate, getD_replicate_nil]

/-- The state right after Generate has allocated and hashed the root node
satisfies the invariant. -/
theorem genInv_initial (cfg : GenCfg) (hz : 1 ≤ cfg.fZ.length) :
    GenInv cfg (AddHash cfg
      ⟨[⟨List.replicate cfg.fZ.length 0, cfg.fNlevels, []⟩], []⟩ 0) := by
  have hsz : (0:Nat) < 2 ^ (cfg.fNlevels - 1) := by positivity
  set rt : PatNode := ⟨List.replicate cfg.fZ.length 0, cfg.fNlevels, []⟩ with hrt
  have hn0 : getNode (⟨[rt], []⟩ : GenState) 0 = rt := rfl
  rw [AddHash_empty cfg ⟨[rt], []⟩ 0 rfl, hn0]
  set N := 2 ^ (cfg.fNlevels - 1) with hN
  set h := patHash rt.bins % N with hh
  have hhlt : h < N := Nat.mod_lt _ hsz
  have hnode : ∀ q, getNode (⟨[rt], (List.replicate N ([] : List Nat)).set h [0]⟩ :
      GenState) q = getNode (⟨[rt], []⟩ : GenState) q := fun _ => rfl
  have htl : ((List.replicate N ([] : List Nat)).set h [0]).length = N := by
    rw [List.length_set, List.length_replicate]
  constructor
  · simp
  · rw [hnode, hn0]
  · intro pid hp
    simp only [List.length_cons, List.length_nil] at hp
    have hp0 : pid = 0 := by omega
    rw [hp0, hnode, hn0]
    exact canonical_replicate_zero cfg.fZ.length hz
  · intro i j hi hj hne
    simp only [List.length_cons, List.length_nil] at hi hj
    omega
  · exact htl
  · intro pid hp
    simp only [List.length_cons, List.length_nil] at hp
    have hp0 : pid = 0 := by omega
    rw [hp0, hnode, hn0, htl]
    show 0 ∈ ((List.replicate N ([] : List Nat)).set h [0]).getD (patHash rt.bins % N) []
    rw [← hh, getD_set_self _ _ _ (by rw [List.length_replicate]; exact hhlt)]
    exact List.mem_cons_self 0 []
  · intro k hk pid hmem
    rw [htl] at hk
    rcases eq_or_ne k h with rfl | hne
    · rw [getD_set_self _ _ _ (by rw [List.length_replicate]; exact hhlt)] at hmem
      rcases List.mem_cons.1 hmem with rfl | hm
      · rw [hnode, hn0, htl]
        exact ⟨by simp, hh.symm⟩
      · simp at hm
    · rw [getD_set_ne _ _ _ _ hne, getD_replicate_nil] at hmem
      simp at hmem
  · intro pid hp l hl
    simp only [List.length_cons, List.length_nil] at hp
    have hp0 : pid = 0 := by omega
    rw [hp0, hnode, hn0] at hl
    simp [hrt] at hl
  · intro pid h1 hp
    simp only [List.length_cons, List.length_nil] at hp
    omega

/-- Any state produced by Generate satisfies the invariant. -/
theorem generate_inv {cfg : GenCfg} {fuel : Nat} {g : GenState}
    (hz : 1 ≤ cfg.fZ.length) (h : Generate cfg fuel = some g) : GenInv cfg g := by
  simp only [Generate] at h
  have h0 : (0:Nat) < (AddHash cfg
      ⟨[⟨List.replicate cfg.fZ.length 0, cfg.fNlevels, []⟩], []⟩ 0).arena.length := by
    rw [AddHash_arena]
    simp
  exact (genInv_MakeChildNodes fuel _ 0 1 g (genInv_initial cfg hz) h0 h).1

/-- C6: Mirror rarity.  In every DAG produced by Generate from valid
parameters, no link carries type 3 (shift and mirror together), and every
link whose type tag has bit 1 set hangs off the all-zero root pattern, which
is the pattern stored at index 0. -/
theorem mirror_rarity (cfg : GenCfg) (fuel : Nat) (g : GenState)
    (hv : ValidCfg cfg) (hgen : Generate cfg fuel = some g) :
    ∀ pid, pid < g.arena.length → ∀ l ∈ (getNode g pid).fChild,
      l.2 ≠ 3 ∧ (l.2 &&& 2 ≠ 0 → pid = 0 ∧
        (getNode g pid).bins = List.replicate cfg.fZ.length 0) := by
  have hz : 1 ≤ cfg.fZ.length := by
    obtain ⟨_, h2, _⟩ := hv
    omega
  have inv := generate_inv hz hgen
  intro pid hpid l hl
  have hlk := inv.links pid hpid l hl
  have ht2 := hlk.2.1
  refine ⟨by omega, ?_⟩
  intro h2b
  have ht : l.2 = 2 := by
    rcases (by omega : l.2 = 0 ∨ l.2 = 1 ∨ l.2 = 2) with h0 | h0 | h0
    · rw [h0] at h2b
      exact absurd rfl h2b
    · rw [h0] at h2b
      exact absurd rfl h2b
    · exact h0
  have hbz := hlk.2.2 ht
  refine ⟨?_, hbz⟩
  by_contra hne
  have hd := inv.distinct pid 0 hpid inv.arena_pos hne
  rw [hbz, inv.root_bins] at hd
  exact hd rfl

/-- The S1 build configuration: 2 planes at z = 0 and 1, 2 levels, max slope
1. -/
def cfgS1 : GenCfg := ⟨2, [0, 1], 1⟩

/-- The complete generator state that Generate produces for S1. -/
def genS1 : GenState :=
  ⟨[⟨[0, 0], 0, [(0, 0), (1, 2), (1, 0), (0, 1)]⟩, ⟨[0, 1], 1, []⟩], [[0], [1]]⟩

/-- Witness for C6: the S1 parameters are valid, Generate returns the S1
state, and the theorem instantiates to it. -/
theorem mirror_rarity_witness :
    ValidCfg cfgS1 ∧ Generate cfgS1 2 = some genS1 ∧
      (∀ pid, pid < genS1.arena.length → ∀ l ∈ (getNode genS1 pid).fChild,
        l.2 ≠ 3 ∧ (l.2 &&& 2 ≠ 0 → pid = 0 ∧
          (getNode genS1 pid).bins = List.replicate cfgS1.fZ.length 0)) :=
  ⟨by with_unfolding_all decide, by with_unfolding_all rfl,
    mirror_rarity cfgS1 2 genS1 (by with_unfolding_all decide)
      (by with_unfolding_all rfl)⟩

/-- C7: Uniqueness.  After Generate (and at every intermediate state reached
through MakeChildNodes, since the invariant is preserved stepwise), any two
distinct stored Pattern instances differ in their bins, and every stored
pattern sits in the hash bucket of its own hash, which is what lets
MakeChildNodes insert only patterns Find reported absent. -/
theorem uniqueness_invariant (cfg : GenCfg) (fuel : Nat) (g : GenState)
    (hv : ValidCfg cfg) (hgen : Generate cfg fuel = some g) :
    (∀ i j, i < g.arena.length → j < g.arena.length → i ≠ j →
        (getNode g i).bins ≠ (getNode g j).bins) ∧
      (∀ pid, pid < g.arena.length →
        pid ∈ g.fHashTable.getD
          (patHash (getNode g pid).bins % g.fHashTable.length) []) := by
  have hz : 1 ≤ cfg.fZ.length := by
    obtain ⟨_, h2, _⟩ := hv
    omega
  have inv := generate_inv hz hgen
  exact ⟨inv.distinct, inv.in_table⟩

/-- Witness for C7: instantiated on the S1 build. -/
theorem uniqueness_invariant_witness :
    ValidCfg cfgS1 ∧ Generate cfgS1 2 = some genS1 ∧
      ((∀ i j, i < genS1.arena.length → j < genS1.arena.length → i ≠ j →
          (getNode genS1 i).bins ≠ (getNode genS1 j).bins) ∧
        (∀ pid, pid < genS1.arena.length →
          pid ∈ genS1.fHashTable.getD
            (patHash (getNode genS1 pid).bins % genS1.fHashTable.length) [])) :=
  ⟨by with_unfolding_all decide, by with_unfolding_all rfl,
    uniqueness_invariant cfgS1 2 genS1 (by with_unfolding_all decide)
      (by with_unfolding_all rfl)⟩

theorem LineCheck_only_z (cfg cfg2 : GenCfg) (bins : List Int)
    (h : cfg.fZ = cfg2.fZ) : LineCheck cfg bins = LineCheck cfg2 bins := by
  simp [LineCheck, h]

/-- The S3 configuration: 3 planes at z = 0, 0.5, 1. -/
def cfgS3 : GenCfg := ⟨3, [0, 1/2, 1], 1⟩

/-- C9: LineCheck rejection scenario S3.  With plane positions [0, 0.5, 1]
the pattern [0, 2, 0] fails LineCheck (the left-edge test at the middle plane
gives dL = 0*0.5 - 2*1 = -2 and the absolute value reaches zL = 1), and
consequently no build over these planes ever stores that pattern. -/
theorem lineCheck_S3 (cfg : GenCfg) (fuel : Nat) (g : GenState)
    (hz : cfg.fZ = [0, 1/2, 1]) (_hv : ValidCfg cfg)
    (hgen : Generate cfg fuel = some g) :
    LineCheck cfg [0, 2, 0] = false ∧
      ∀ pid, pid < g.arena.length → (getNode g pid).bins ≠ [0, 2, 0] := by
  have hlc : LineCheck cfg [0, 2, 0] = false := by
    rw [LineCheck_only_z cfg cfgS3 [0, 2, 0] (by rw [hz]; rfl)]
    with_unfolding_all decide
  refine ⟨hlc, ?_⟩
  intro pid hpid heq
  have hz1 : 1 ≤ cfg.fZ.length := by
    rw [hz]
    simp
  have inv := generate_inv hz1 hgen
  rcases Nat.eq_zero_or_pos pid with rfl | hpos
  · have hr := inv.root_bins
    rw [heq, hz] at hr
    simp at hr
  · have hl := inv.line_ok pid hpos hpid
    rw [heq, hlc] at hl
    simp at hl

/-- The complete generator state of the S3 build at nlevels = 3. -/
def genS3 : GenState :=
  ⟨[⟨[0, 0, 0], 0, [(0, 0), (1, 2), (2, 2), (2, 0), (1, 0), (0, 1)]⟩,
    ⟨[0, 1, 1], 1, [(1, 1), (4, 0), (3, 1)]⟩,
    ⟨[0, 0, 1], 1, [(3, 0), (2, 1), (5, 0)]⟩,
    ⟨[0, 1, 2], 2, []⟩, ⟨[0, 2, 3], 2, []⟩, ⟨[0, 1, 3], 2, []⟩],
   [[3, 0], [5, 2], [], [4, 1]]⟩

/-- Witness for C9: instantiated on the S3 build. -/
theorem lineCheck_S3_witness :
    cfgS3.fZ = [0, 1/2, 1] ∧ ValidCfg cfgS3 ∧ Generate cfgS3 3 = some genS3 ∧
      (LineCheck cfgS3 [0, 2, 0] = false ∧
        ∀ pid, pid < genS3.arena.length → (getNode genS3 pid).bins ≠ [0, 2, 0]) :=
  ⟨rfl, by with_unfolding_all decide, by with_unfolding_all rfl,
    lineCheck_S3 cfgS3 3 genS3 rfl (by with_unfolding_all decide)
      (by with_unfolding_all rfl)⟩

/-- C4 counterexample: in the S1 build the root's child list does not have
exactly one link; it has four. -/
theorem trivial_tree_S1_counterexample :
    (Generate cfgS1 2).map (fun g => ((getNode g 0).fChild).length) ≠ some 1 := by
  with_unfolding_all decide

/-- C4 (amended): the S1 build stores exactly the two patterns [0,0] (root)
and [0,1] (the mirror image [0,-1] is folded onto [0,1] rather than stored),
and the root's child list holds four links, prepended in enumeration order:
itself with type 1, [0,1] with type 0, [0,1] with type 2, and itself with
type 0 (so the list reads [(0,0),(1,2),(1,0),(0,1)] newest first); the single
link to a newly created pattern carries type 0. -/
theorem trivial_tree_S1_amended :
    (Generate cfgS1 2).map (fun g =>
        (g.arena.map PatNode.bins, (getNode g 0).fChild)) =
      some ([[0, 0], [0, 1]], [(0, 0), (1, 2), (1, 0), (0, 1)]) := by
  with_unfolding_all rfl

theorem foldl_bind_isSome (s : GenState → Nat × Nat → Option GenState)
    (hsome : ∀ gg l, (s gg l).isSome = true) :
    ∀ (ls : List (Nat × Nat)) (og : Option GenState), og.isSome = true →
      (ls.foldl (fun og l => og.bind (fun gg => s gg l)) og).isSome = true := by
  intro ls
  induction ls with
  | nil => exact fun og h => h
  | cons l ls ih =>
    intro og h
    rw [List.foldl_cons]
    apply ih
    cases og with
    | none => simp at h
    | some gg =>
      simp only [Option.some_bind]
      exact hsome gg l

theorem foldl_bind_congr (s1 s2 : GenState → Nat × Nat → Option GenState)
    (hs : ∀ gg l, s1 gg l = s2 gg l) :
    ∀ (ls : List (Nat × Nat)) (og : Option GenState),
      ls.foldl (fun og l => og.bind (fun gg => s1 gg l)) og =
        ls.foldl (fun og l => og.bind (fun gg => s2 gg l)) og := by
  intro ls
  induction ls with
  | nil => exact fun og => rfl
  | cons l ls ih =>
    intro og
    rw [List.foldl_cons, List.foldl_cons]
    have hstep : og.bind (fun gg => s1 gg l) = og.bind (fun gg => s2 gg l) := by
      cases og with
      | none => rfl
      | some gg =>
        simp only [Option.some_bind]
        exact hs gg l
    rw [hstep]
    exact ih _

/-- Recursion nesting of MakeChildNodes is bounded by the level count: any
fuel that exceeds fNlevels - depth succeeds, and all such fuels agree. -/
theorem MakeChildNodes_fuel_stable :
    ∀ (fuel : Nat) (cfg : GenCfg) (g : GenState) (pid depth : Nat),
      cfg.fNlevels < depth + fuel → 0 < fuel →
      (MakeChildNodes cfg fuel g pid depth).isSome = true ∧
        ∀ fuel2, cfg.fNlevels < depth + fuel2 → 0 < fuel2 →
          MakeChildNodes cfg fuel2 g pid depth =
            MakeChildNodes cfg fuel g pid depth := by
  intro fuel
  induction fuel with
  | zero =>
    intro cfg g pid depth h1 h2
    omega
  | succ fuel ih =>
    intro cfg g pid depth h1 h2
    by_cases hdep : cfg.fNlevels ≤ depth
    · constructor
      · simp only [MakeChildNodes, if_pos hdep]
        rfl
      · intro fuel2 h1b h2b
        cases fuel2 with
        | zero => omega
        | succ fuel2 => simp only [MakeChildNodes, if_pos hdep]
    · have hfpos : 0 < fuel := by omega
      constructor
      · simp only [MakeChildNodes, if_neg hdep]
        apply foldl_bind_isSome
        · intro gg l
          split
          · exact (ih cfg gg l.1 (depth + 1) (by omega) hfpos).1
          · rfl
        · rfl
      · intro fuel2 h1b h2b
        cases fuel2 with
        | zero => omega
        | succ fuel2 =>
          have hf2pos : 0 < fuel2 := by omega
          simp only [MakeChildNodes, if_neg hdep]
          apply foldl_bind_congr
          intro gg l
          split
          · exact (ih cfg gg l.1 (depth + 1) (by omega) hfpos).2 fuel2
              (by omega) hf2pos
          · rfl

/-- C10: Termination of the recursive build.  For every valid parameter set
the recursion of MakeChildNodes bottoms out: fuel equal to the level count
(one unit per depth, the only way the recursion descends) already completes,
and every larger fuel returns the identical tree, even though the DAG
carries self links such as the root's links to itself. -/
theorem generate_terminates (cfg : GenCfg) (hv : ValidCfg cfg) :
    (Generate cfg cfg.fNlevels).isSome = true ∧
      ∀ fuel, cfg.fNlevels ≤ fuel →
        Generate cfg fuel = Generate cfg cfg.fNlevels := by
  have hn2 : 2 ≤ cfg.fNlevels := hv.1
  constructor
  · simp only [Generate]
    exact (MakeChildNodes_fuel_stable cfg.fNlevels cfg _ 0 1 (by omega) (by omega)).1
  · intro fuel hf
    simp only [Generate]
    exact (MakeChildNodes_fuel_stable cfg.fNlevels cfg _ 0 1 (by omega)
      (by omega)).2 fuel (by omega) (by omega)

/-- Witness for C10: the S1 parameters are valid and the theorem
instantiates to them. -/
theorem generate_terminates_witness :
    ValidCfg cfgS1 ∧ ((Generate cfgS1 cfgS1.fNlevels).isSome = true ∧
      ∀ fuel, cfgS1.fNlevels ≤ fuel →
        Generate cfgS1 fuel = Generate cfgS1 cfgS1.fNlevels) :=
  ⟨by with_unfolding_all decide, generate_terminates cfgS1 (by with_unfolding_all decide)⟩

section NextEquations

variable (A B : List Hit) (maxdist : ℚ) (s : HitPairIter)

theorem Next_eq_lt {ia ib : Nat} (hsn : s.fNext = (some ia, some ib))
    (hc : (hget A ia).Compare (hget B ib) maxdist = -1) :
    Next A B maxdist s =
      { s with
        fCurrent := (some ia, none),
        fNext := ((readIdx A.length s.fIterA).1, some ib),
        fIterA := (readIdx A.length s.fIterA).2 } := by
  simp only [Next, hsn]
  rw [if_pos hc]

theorem Next_eq_gt {ia ib : Nat} (hsn : s.fNext = (some ia, some ib))
    (hc : (hget A ia).Compare (hget B ib) maxdist = 1) :
    Next A B maxdist s =
      { s with
        fCurrent := (none, some ib),
        fNext := (some ia, (readIdx B.length s.fIterB).1),
        fIterB := (readIdx B.length s.fIterB).2 } := by
  simp only [Next, hsn]
  rw [if_neg (by rw [hc]; decide), if_pos hc]

theorem Next_eq_scanCont {ia ib j : Nat} (hsn : s.fNext = (some ia, some ib))
    (hc : (hget A ia).Compare (hget B ib) maxdist = 0)
    (hj : (readIdx B.length s.fIterB).1 = some j)
    (hcj : ¬ (hget A ia).Compare (hget B j) maxdist < 0)
    (hsc : s.fScanning = true) :
    Next A B maxdist s =
      { s with
        fIterB := (readIdx B.length s.fIterB).2,
        fCurrent := (some ia, some ib),
        fNext := (some ia, (readIdx B.length s.fIterB).1) } := by
  simp only [Next, hsn]
  rw [if_neg (by rw [hc]; decide), if_neg (by rw [hc]; decide), hj]
  rw [if_neg (by simpa using hcj), if_pos hsc]

theorem Next_eq_scanEnter {ia ib j : Nat} (hsn : s.fNext = (some ia, some ib))
    (hc : (hget A ia).Compare (hget B ib) maxdist = 0)
    (hj : (readIdx B.length s.fIterB).1 = some j)
    (hcj : ¬ (hget A ia).Compare (hget B j) maxdist < 0)
    (hsc : s.fScanning = false) :
    Next A B maxdist s =
      { s with
        fScanning := true,
        fSaveIter := (readIdx B.length s.fIterB).2,
        fSaveHit := some ib,
        fIterB := (readIdx B.length s.fIterB).2,
        fCurrent := (some ia, some ib),
        fNext := (some ia, (readIdx B.length s.fIterB).1) } := by
  simp only [Next, hsn]
  rw [if_neg (by rw [hc]; decide), if_neg (by rw [hc]; decide), hj]
  rw [if_neg (by simpa using hcj), if_neg (by simp [hsc])]

theorem scanEnd_true {ia : Nat} (hse : (readIdx B.length s.fIterB).1 = none ∨
    ∃ j, (readIdx B.length s.fIterB).1 = some j ∧
      (hget A ia).Compare (hget B j) maxdist < 0) :
    (match (readIdx B.length s.fIterB).1 with
      | none => true
      | some j => decide ((hget A ia).Compare (hget B j) maxdist < 0)) = true := by
  rcases hse with hn | ⟨j, hjs, hj⟩
  · rw [hn]
  · rw [hjs]
    simpa using hj

theorem Next_eq_normal {ia ib : Nat} (hsn : s.fNext = (some ia, some ib))
    (hc : (hget A ia).Compare (hget B ib) maxdist = 0)
    (hse : (readIdx B.length s.fIterB).1 = none ∨
      ∃ j, (readIdx B.length s.fIterB).1 = some j ∧
        (hget A ia).Compare (hget B j) maxdist < 0)
    (hsc : s.fScanning = false) :
    Next A B maxdist s =
      { s with
        fIterA := (readIdx A.length s.fIterA).2,
        fIterB := (readIdx B.length s.fIterB).2,
        fCurrent := (some ia, some ib),
        fNext := ((readIdx A.length s.fIterA).1, (readIdx B.length s.fIterB).1) } := by
  simp only [Next, hsn]
  rw [if_neg (by rw [hc]; decide), if_neg (by rw [hc]; decide)]
  rw [if_pos (scanEnd_true A B maxdist s hse), if_neg (by simp [hsc])]

theorem Next_eq_restoreA {ia ib ja : Nat} (hsn : s.fNext = (some ia, some ib))
    (hc : (hget A ia).Compare (hget B ib) maxdist = 0)
    (hse : (readIdx B.length s.fIterB).1 = none ∨
      ∃ j, (readIdx B.length s.fIterB).1 = some j ∧
        (hget A ia).Compare (hget B j) maxdist < 0)
    (hsc : s.fScanning = true)
    (hja : (readIdx A.length s.fIterA).1 = some ja) :
    Next A B maxdist s =
      { fIterA := (readIdx A.length s.fIterA).2,
        fIterB := (scanForward B maxdist (hget A ja) (B.length + 2)
          s.fSaveHit (readIdx B.length s.fIterB).1 s.fSaveIter).2,
        fSaveIter := s.fSaveIter, fSaveHit := s.fSaveHit, fScanning := false,
        fCurrent := (some ia, some ib),
        fNext := (some ja, (scanForward B maxdist (hget A ja) (B.length + 2)
          s.fSaveHit (readIdx B.length s.fIterB).1 s.fSaveIter).1) } := by
  simp only [Next, hsn]
  rw [if_neg (by rw [hc]; decide), if_neg (by rw [hc]; decide)]
  rw [if_pos (scanEnd_true A B maxdist s hse), if_pos hsc, hja]

theorem Next_eq_restoreNoA {ia ib : Nat} (hsn : s.fNext = (some ia, some ib))
    (hc : (hget A ia).Compare (hget B ib) maxdist = 0)
    (hse : (readIdx B.length s.fIterB).1 = none ∨
      ∃ j, (readIdx B.length s.fIterB).1 = some j ∧
        (hget A ia).Compare (hget B j) maxdist < 0)
    (hsc : s.fScanning = true)
    (hja : (readIdx A.length s.fIterA).1 = none) :
    Next A B maxdist s =
      { s with
        fScanning := false,
        fIterA := (readIdx A.length s.fIterA).2,
        fIterB := s.fSaveIter,
        fCurrent := (some ia, some ib),
        fNext := (none, (readIdx B.length s.fIterB).1) } := by
  simp only [Next, hsn]
  rw [if_neg (by rw [hc]; decide), if_neg (by rw [hc]; decide)]
  rw [if_pos (scanEnd_true A B maxdist s hse), if_pos hsc, hja]

theorem Next_eq_onlyA {ia : Nat} (hsn : s.fNext = (some ia, none)) :
    Next A B maxdist s =
      { s with
        fIterA := (readIdx A.length s.fIterA).2,
        fCurrent := (some ia, none),
        fNext := ((readIdx A.length s.fIterA).1, none) } := by
  simp only [Next, hsn]

theorem Next_eq_onlyB {ib : Nat} (hsn : s.fNext = (none, some ib)) :
    Next A B maxdist s =
      { s with
        fIterB := (readIdx B.length s.fIterB).2,
        fCurrent := (none, some ib),
        fNext := (none, (readIdx B.length s.fIterB).1) } := by
  simp only [Next, hsn]

theorem Next_eq_done (hsn : s.fNext = (none, none)) :
    Next A B maxdist s = { s with fCurrent := (none, none) } := by
  simp only [Next, hsn]

end NextEquations

section Completeness

/-- Termination measure of the pair iterator: the dominant block counts the
remaining A elements together with the pending-A indicator, the small block
counts B progress through the saved-restart cursor, the B cursor and the
pending-B indicator. -/
def measureP (A B : List Hit) (s : HitPairIter) : Nat :=
  (2 * B.length + 4) *
      ((A.length - s.fIterA) + (if s.fNext.1 = none then 0 else 1))
    + (B.length - (if s.fScanning then s.fSaveIter else s.fIterB))
    + (B.length - s.fIterB)
    + (if s.fNext.2 = none then 0 else 1)

theorem measure_helper {L2 a1 a2 b1 b2 : Nat} (ha : a1 < a2) (hb : b1 < L2) :
    L2 * a1 + b1 < L2 * a2 + b2 := by
  have h : L2 * a1 + L2 ≤ L2 * a2 := by
    have h0 := Nat.mul_le_mul_left L2 (Nat.succ_le_of_lt ha)
    simpa [Nat.mul_succ] using h0
  omega

theorem measureP_lt_fullFuel (A B : List Hit) (s : HitPairIter) :
    measureP A B s < fullFuel A B := by
  unfold measureP fullFuel
  have h1 : (2 * B.length + 4) *
      ((A.length - s.fIterA) + (if s.fNext.1 = none then 0 else 1)) ≤
      (2 * B.length + 4) * (A.length + 1) := by
    apply Nat.mul_le_mul_left
    have := Nat.sub_le A.length s.fIterA
    split <;> omega
  have h3 : (2 * B.length + 4) * (A.length + 2) =
      (2 * B.length + 4) * (A.length + 1) + (2 * B.length + 4) := by ring
  rw [h3]
  set X := (2 * B.length + 4) * (A.length + 1) with hX
  have h4 : B.length - (if s.fScanning then s.fSaveIter else s.fIterB) ≤ B.length :=
    Nat.sub_le _ _
  have h5 : B.length - s.fIterB ≤ B.length := Nat.sub_le _ _
  have h6 : (if s.fNext.2 = none then 0 else 1) ≤ 1 := by split <;> omega
  omega

theorem readIdx_lt {n i : Nat} (h : i < n) : readIdx n i = (some i, i + 1) := by
  simp [readIdx, h]

theorem readIdx_ge {n i : Nat} (h : n ≤ i) : readIdx n i = (none, i) := by
  simp [readIdx, Nat.not_lt.mpr h]

/-- Invariant of the pair-iterator completeness argument.  EA and EB hold on
the indices already emitted as first, respectively second, components. -/
structure PIInv (A B : List Hit) (EA EB : Nat → Prop) (s : HitPairIter) : Prop where
  iA_le : s.fIterA ≤ A.length
  iB_le : s.fIterB ≤ B.length
  nextA_some : ∀ i, s.fNext.1 = some i →
    i < A.length ∧ s.fIterA = i + 1 ∧ ∀ k, k < i → EA k
  nextA_none : s.fNext.1 = none → ∀ k, k < A.length → EA k
  nextB_some : ∀ j, s.fNext.2 = some j →
    j < B.length ∧ ∀ k, k < s.fIterB → k ≠ j → EB k
  nextB_none : s.fNext.2 = none → ∀ k, k < B.length → EB k
  nextB_lt : ∀ j, s.fNext.2 = some j → s.fNext.1 ≠ none → j < s.fIterB
  save_lt : ∀ h, s.fSaveHit = some h → h < B.length
  scan : s.fScanning = true →
    (∃ h, s.fSaveHit = some h ∧ h < s.fSaveIter) ∧ s.fSaveIter ≤ s.fIterB

theorem PIInv.mono {A B : List Hit} {EA EB EA2 EB2 : Nat → Prop} {s : HitPairIter}
    (hA : ∀ k, EA k → EA2 k) (hB : ∀ k, EB k → EB2 k)
    (inv : PIInv A B EA EB s) : PIInv A B EA2 EB2 s where
  iA_le := inv.iA_le
  iB_le := inv.iB_le
  nextA_some := fun i hi =>
    ⟨(inv.nextA_some i hi).1, (inv.nextA_some i hi).2.1,
      fun k hk => hA k ((inv.nextA_some i hi).2.2 k hk)⟩
  nextA_none := fun hn k hk => hA k (inv.nextA_none hn k hk)
  nextB_some := fun j hj =>
    ⟨(inv.nextB_some j hj).1,
      fun k hk hne => hB k ((inv.nextB_some j hj).2 k hk hne)⟩
  nextB_none := fun hn k hk => hB k (inv.nextB_none hn k hk)
  nextB_lt := inv.nextB_lt
  save_lt := inv.save_lt
  scan := inv.scan

end Completeness

section ScanForwardLemmas

variable (B : List Hit) (maxdist : ℚ) (aNew : Hit)

/-- When the saved hit already equals nextB the restore loop stops at once
(also with zero fuel). -/
theorem scanForward_stop :
    ∀ (fuel n i : Nat),
      scanForward B maxdist aNew fuel (some n) (some n) i = (some n, i)
  | 0, _, _ => rfl
  | _ + 1, _, _ => by simp [scanForward]

/-- One-step unfolding of the restore loop. -/
theorem scanForward_succ (fuel : Nat) (hB nB : Option Nat) (iB : Nat) :
    scanForward B maxdist aNew (fuel + 1) hB nB iB =
      if hB = nB then (hB, iB)
      else
        match hB with
        | none => (none, iB)
        | some j =>
          if (hget B j).Compare aNew maxdist < 0 then
            scanForward B maxdist aNew fuel (readIdx B.length iB).1 nB
              (readIdx B.length iB).2
          else (some j, iB) := rfl

/-- Cursor bounds and result validity of the restore loop, for any fuel. -/
theorem scanForward_bounds :
    ∀ (fuel : Nat) (hB nB : Option Nat) (iB : Nat),
      iB ≤ B.length →
      (∀ j, hB = some j → j < B.length ∧ j < iB) →
      (scanForward B maxdist aNew fuel hB nB iB).2 ≤ B.length ∧
      iB ≤ (scanForward B maxdist aNew fuel hB nB iB).2 ∧
      (∀ j, (scanForward B maxdist aNew fuel hB nB iB).1 = some j →
        j < B.length ∧ j < (scanForward B maxdist aNew fuel hB nB iB).2) := by
  intro fuel
  induction fuel with
  | zero =>
    intro hB nB iB hle hj
    exact ⟨hle, Nat.le_refl _, hj⟩
  | succ fuel ih =>
    intro hB nB iB hle hj
    by_cases heq : hB = nB
    · rw [scanForward_succ, if_pos heq]
      exact ⟨hle, Nat.le_refl _, hj⟩
    · cases hB with
      | none =>
        rw [scanForward_succ, if_neg heq]
        exact ⟨hle, Nat.le_refl _, fun j h => by cases h⟩
      | some h0 =>
        rw [scanForward_succ, if_neg heq]
        dsimp only
        by_cases hcmp : (hget B h0).Compare aNew maxdist < 0
        · rw [if_pos hcmp]
          rcases Nat.lt_or_ge iB B.length with hv | hv
          · simp only [readIdx_lt hv]
            have h := ih (some iB) nB (iB + 1) hv
              (fun j hj0 => by cases hj0; exact ⟨hv, Nat.lt_succ_self _⟩)
            exact ⟨h.1, Nat.le_trans (Nat.le_succ iB) h.2.1, h.2.2⟩
          · simp only [readIdx_ge hv]
            exact ih none nB iB hle (fun j h => by cases h)
        · simp only [if_neg hcmp]
          exact ⟨hle, Nat.le_refl _, hj⟩

/-- Coverage of the restore loop: when nextB is the element at index n ahead
of the restart cursor, every index below the final cursor other than the
returned one satisfies Q, and the returned hit is present. -/
theorem scanForward_covered (Q : Nat → Prop) (n : Nat) :
    ∀ (fuel : Nat) (hB : Option Nat) (iB : Nat),
      iB ≤ n → n < B.length → hB ≠ none →
      (∀ k, k < n → Q k) →
      (∀ k, hB = some k → k ≠ n → Q k) →
      (∀ k, k < iB → hB ≠ some k → Q k) →
      (scanForward B maxdist aNew fuel hB (some n) iB).1 ≠ none ∧
      (∀ k, k < (scanForward B maxdist aNew fuel hB (some n) iB).2 →
        (scanForward B maxdist aNew fuel hB (some n) iB).1 ≠ some k → Q k) := by
  intro fuel
  induction fuel with
  | zero =>
    intro hB iB _ _ hne _ _ hpre
    exact ⟨hne, fun k hk hnk => hpre k hk hnk⟩
  | succ fuel ih =>
    intro hB iB hin hn hne hqr hph hpre
    by_cases heq : hB = some n
    · rw [scanForward_succ, if_pos heq]
      exact ⟨hne, fun k hk hnk => hpre k hk hnk⟩
    · cases hB with
      | none => exact absurd rfl hne
      | some h0 =>
        rw [scanForward_succ, if_neg heq]
        dsimp only
        by_cases hcmp : (hget B h0).Compare aNew maxdist < 0
        · rw [if_pos hcmp]
          have hlt : iB < B.length := Nat.lt_of_le_of_lt hin hn
          simp only [readIdx_lt hlt]
          have hq0 : Q h0 := hph h0 rfl (fun h => heq (by rw [h]))
          rcases Nat.lt_or_eq_of_le hin with hin' | hin'
          · refine ih (some iB) (iB + 1) hin' hn (by simp) hqr ?_ ?_
            · intro k hk _
              cases hk
              exact hqr iB hin'
            · intro k hk hkne
              rcases Nat.lt_or_ge k iB with hk' | hk'
              · by_cases hk0 : k = h0
                · exact hk0 ▸ hq0
                · exact hpre k hk' (fun h => hk0 (by cases h; rfl))
              · exact absurd (by omega : k = iB) (fun h => hkne (by rw [h]))
          · subst hin'
            rw [scanForward_stop]
            refine ⟨by simp, ?_⟩
            intro k hk hknk
            have : k ≠ iB := fun h => hknk (by rw [h])
            exact hqr k (by omega)
        · simp only [if_neg hcmp]
          exact ⟨hne, fun k hk hnk => hpre k hk hnk⟩

end ScanForwardLemmas

section StepLemmas

variable (A B : List Hit) (maxdist : ℚ) (EA EB : Nat → Prop) (s : HitPairIter)

/-- Combined conclusion of one Next step: the invariant survives with the
freshly emitted indices added, the emitted pair is not terminal, and the
measure drops. -/
def StepGoal : Prop :=
  PIInv A B (fun k => EA k ∨ (Next A B maxdist s).fCurrent.1 = some k)
    (fun k => EB k ∨ (Next A B maxdist s).fCurrent.2 = some k)
    (Next A B maxdist s) ∧
  (Next A B maxdist s).fCurrent ≠ (none, none) ∧
  measureP A B (Next A B maxdist s) < measureP A B s

theorem measureA_decr {a1 a2 t3 t4 t5 u3 u4 u5 : Nat}
    (ha : a1 < a2) (h3 : t3 ≤ B.length) (h4 : t4 ≤ B.length) (h5 : t5 ≤ 1) :
    (2 * B.length + 4) * a1 + t3 + t4 + t5 <
      (2 * B.length + 4) * a2 + u3 + u4 + u5 := by
  have h : (2 * B.length + 4) * a1 + (2 * B.length + 4) ≤ (2 * B.length + 4) * a2 := by
    have h0 := Nat.mul_le_mul_left (2 * B.length + 4) (Nat.succ_le_of_lt ha)
    simpa [Nat.mul_succ] using h0
  omega

theorem measureB_decr {x t3 t4 t5 u3 u4 u5 : Nat} (hb : t3 + t4 + t5 < u3 + u4 + u5) :
    x + t3 + t4 + t5 < x + u3 + u4 + u5 := by omega

theorem step_lt {ia ib : Nat} (hsn : s.fNext = (some ia, some ib))
    (hc : (hget A ia).Compare (hget B ib) maxdist = -1)
    (inv : PIInv A B EA EB s) : StepGoal A B maxdist EA EB s := by
  obtain ⟨hialt, hiaeq, hEA⟩ := inv.nextA_some ia (by rw [hsn])
  obtain ⟨hiblt, hEB⟩ := inv.nextB_some ib (by rw [hsn])
  have hblt : ib < s.fIterB := inv.nextB_lt ib (by rw [hsn]) (by rw [hsn]; simp)
  unfold StepGoal
  rw [Next_eq_lt A B maxdist s hsn hc]
  rcases Nat.lt_or_ge s.fIterA A.length with hv | hv
  · rw [readIdx_lt hv]
    refine ⟨?_, by simp, ?_⟩
    · refine ⟨hv, inv.iB_le, ?_, ?_, ?_, ?_, ?_, inv.save_lt, inv.scan⟩
      · intro i hi
        dsimp only at hi ⊢
        injection hi with hi
        subst hi
        refine ⟨hv, rfl, ?_⟩
        intro k hk
        rcases Nat.lt_or_ge k ia with hk2 | hk2
        · exact Or.inl (hEA k hk2)
        · right
          dsimp only
          have hkia : k = ia := by omega
          rw [hkia]
      · intro h
        simp at h
      · intro j hj
        dsimp only at hj ⊢
        injection hj with hj
        subst hj
        exact ⟨hiblt, fun k hk hne => Or.inl (hEB k hk hne)⟩
      · intro h
        simp at h
      · intro j hj _
        dsimp only at hj
        injection hj with hj
        subst hj
        exact hblt
    · simp only [measureP, hsn]
      try dsimp only
      refine measureA_decr B ?_ (Nat.sub_le _ _) (Nat.sub_le _ _) ?_
      · simp
        omega
      · split <;> omega
  · rw [readIdx_ge hv]
    have hAeq : s.fIterA = A.length := Nat.le_antisymm inv.iA_le hv
    refine ⟨?_, by simp, ?_⟩
    · refine ⟨inv.iA_le, inv.iB_le, ?_, ?_, ?_, ?_, ?_, inv.save_lt, inv.scan⟩
      · intro i hi
        simp at hi
      · intro _ k hk
        rcases Nat.lt_or_ge k ia with hk2 | hk2
        · exact Or.inl (hEA k hk2)
        · right
          dsimp only
          have hkia : k = ia := by omega
          rw [hkia]
      · intro j hj
        dsimp only at hj ⊢
        injection hj with hj
        subst hj
        exact ⟨hiblt, fun k hk hne => Or.inl (hEB k hk hne)⟩
      · intro h
        simp at h
      · intro j hj hne
        exact absurd rfl hne
    · simp only [measureP, hsn]
      try dsimp only
      refine measureA_decr B ?_ (Nat.sub_le _ _) (Nat.sub_le _ _) ?_
      · simp
      · split <;> omega

theorem step_gt {ia ib : Nat} (hsn : s.fNext = (some ia, some ib))
    (hc : (hget A ia).Compare (hget B ib) maxdist = 1)
    (inv : PIInv A B EA EB s) : StepGoal A B maxdist EA EB s := by
  obtain ⟨hialt, hiaeq, hEA⟩ := inv.nextA_some ia (by rw [hsn])
  obtain ⟨hiblt, hEB⟩ := inv.nextB_some ib (by rw [hsn])
  unfold StepGoal
  rw [Next_eq_gt A B maxdist s hsn hc]
  rcases Nat.lt_or_ge s.fIterB B.length with hv | hv
  · rw [readIdx_lt hv]
    refine ⟨?_, by simp, ?_⟩
    · refine ⟨inv.iA_le, hv, ?_, ?_, ?_, ?_, ?_, inv.save_lt, ?_⟩
      · intro i hi
        dsimp only at hi ⊢
        injection hi with hi
        subst hi
        exact ⟨hialt, hiaeq, fun k hk => Or.inl (hEA k hk)⟩
      · intro h
        simp at h
      · intro j hj
        dsimp only at hj ⊢
        injection hj with hj
        subst hj
        refine ⟨hv, ?_⟩
        intro k hk hne
        by_cases hkb : k = ib
        · right
          rw [hkb]
        · exact Or.inl (hEB k (by omega) hkb)
      · intro h
        simp at h
      · intro j hj _
        dsimp only at hj
        injection hj with hj
        subst hj
        exact Nat.lt_succ_self _
      · intro hs
        exact ⟨(inv.scan hs).1, Nat.le_trans (inv.scan hs).2 (Nat.le_succ _)⟩
    · simp only [measureP, hsn]
      try dsimp only
      refine measureB_decr ?_
      by_cases hs : s.fScanning <;> simp [hs] <;> omega
  · rw [readIdx_ge hv]
    have hBeq : s.fIterB = B.length := Nat.le_antisymm inv.iB_le hv
    refine ⟨?_, by simp, ?_⟩
    · refine ⟨inv.iA_le, inv.iB_le, ?_, ?_, ?_, ?_, ?_, inv.save_lt, inv.scan⟩
      · intro i hi
        dsimp only at hi ⊢
        injection hi with hi
        subst hi
        exact ⟨hialt, hiaeq, fun k hk => Or.inl (hEA k hk)⟩
      · intro h
        simp at h
      · intro j hj
        simp at hj
      · intro _ k hk
        by_cases hkb : k = ib
        · right
          dsimp only
          rw [hkb]
        · exact Or.inl (hEB k (by omega) hkb)
      · intro j hj
        simp at hj
    · simp only [measureP, hsn]
      try dsimp only
      refine measureB_decr ?_
      simp

theorem step_onlyA {ia : Nat} (hsn : s.fNext = (some ia, none))
    (inv : PIInv A B EA EB s) : StepGoal A B maxdist EA EB s := by
  obtain ⟨hialt, hiaeq, hEA⟩ := inv.nextA_some ia (by rw [hsn])
  have hBnone := inv.nextB_none (by rw [hsn])
  unfold StepGoal
  rw [Next_eq_onlyA A B maxdist s hsn]
  rcases Nat.lt_or_ge s.fIterA A.length with hv | hv
  · rw [readIdx_lt hv]
    refine ⟨?_, by simp, ?_⟩
    · refine ⟨hv, inv.iB_le, ?_, ?_, ?_, ?_, ?_, inv.save_lt, inv.scan⟩
      · intro i hi
        dsimp only at hi ⊢
        injection hi with hi
        subst hi
        refine ⟨hv, rfl, ?_⟩
        intro k hk
        rcases Nat.lt_or_ge k ia with hk2 | hk2
        · exact Or.inl (hEA k hk2)
        · right
          dsimp only
          have hkia : k = ia := by omega
          rw [hkia]
      · intro h
        simp at h
      · intro j hj
        simp at hj
      · intro _ k hk
        exact Or.inl (hBnone k hk)
      · intro j hj
        simp at hj
    · simp only [measureP, hsn]
      try dsimp only
      refine measureA_decr B ?_ (Nat.sub_le _ _) (Nat.sub_le _ _) ?_
      · simp
        omega
      · split <;> omega
  · rw [readIdx_ge hv]
    have hAeq : s.fIterA = A.length := Nat.le_antisymm inv.iA_le hv
    refine ⟨?_, by simp, ?_⟩
    · refine ⟨inv.iA_le, inv.iB_le, ?_, ?_, ?_, ?_, ?_, inv.save_lt, inv.scan⟩
      · intro i hi
        simp at hi
      · intro _ k hk
        rcases Nat.lt_or_ge k ia with hk2 | hk2
        · exact Or.inl (hEA k hk2)
        · right
          dsimp only
          have hkia : k = ia := by omega
          rw [hkia]
      · intro j hj
        simp at hj
      · intro _ k hk
        exact Or.inl (hBnone k hk)
      · intro j hj
        simp at hj
    · simp only [measureP, hsn]
      try dsimp only
      refine measureA_decr B ?_ (Nat.sub_le _ _) (Nat.sub_le _ _) ?_
      · simp
      · split <;> omega

theorem step_onlyB {ib : Nat} (hsn : s.fNext = (none, some ib))
    (inv : PIInv A B EA EB s) : StepGoal A B maxdist EA EB s := by
  have hAnone := inv.nextA_none (by rw [hsn])
  obtain ⟨hiblt, hEB⟩ := inv.nextB_some ib (by rw [hsn])
  unfold StepGoal
  rw [Next_eq_onlyB A B maxdist s hsn]
  rcases Nat.lt_or_ge s.fIterB B.length with hv | hv
  · rw [readIdx_lt hv]
    refine ⟨?_, by simp, ?_⟩
    · refine ⟨inv.iA_le, hv, ?_, ?_, ?_, ?_, ?_, inv.save_lt, ?_⟩
      · intro i hi
        simp at hi
      · intro _ k hk
        exact Or.inl (hAnone k hk)
      · intro j hj
        dsimp only at hj ⊢
        injection hj with hj
        subst hj
        refine ⟨hv, ?_⟩
        intro k hk hne
        by_cases hkb : k = ib
        · right
          rw [hkb]
        · exact Or.inl (hEB k (by omega) hkb)
      · intro h
        simp at h
      · intro j hj hne
        exact absurd rfl hne
      · intro hs
        exact ⟨(inv.scan hs).1, Nat.le_trans (inv.scan hs).2 (Nat.le_succ _)⟩
    · simp only [measureP, hsn]
      try dsimp only
      refine measureB_decr ?_
      by_cases hs : s.fScanning <;> simp [hs] <;> omega
  · rw [readIdx_ge hv]
    have hBeq : s.fIterB = B.length := Nat.le_antisymm inv.iB_le hv
    refine ⟨?_, by simp, ?_⟩
    · refine ⟨inv.iA_le, inv.iB_le, ?_, ?_, ?_, ?_, ?_, inv.save_lt, inv.scan⟩
      · intro i hi
        simp at hi
      · intro _ k hk
        exact Or.inl (hAnone k hk)
      · intro j hj
        simp at hj
      · intro _ k hk
        by_cases hkb : k = ib
        · right
          dsimp only
          rw [hkb]
        · exact Or.inl (hEB k (by omega) hkb)
      · intro j hj
        simp at hj
    · simp only [measureP, hsn]
      try dsimp only
      refine measureB_decr ?_
      simp

theorem step_scanCont {ia ib : Nat} (hsn : s.fNext = (some ia, some ib))
    (hc : (hget A ia).Compare (hget B ib) maxdist = 0)
    (hv : s.fIterB < B.length)
    (hcj : ¬ (hget A ia).Compare (hget B s.fIterB) maxdist < 0)
    (hsc : s.fScanning = true)
    (inv : PIInv A B EA EB s) : StepGoal A B maxdist EA EB s := by
  obtain ⟨hialt, hiaeq, hEA⟩ := inv.nextA_some ia (by rw [hsn])
  obtain ⟨hiblt, hEB⟩ := inv.nextB_some ib (by rw [hsn])
  unfold StepGoal
  rw [Next_eq_scanCont A B maxdist s hsn hc (by rw [readIdx_lt hv]) hcj hsc]
  rw [readIdx_lt hv]
  refine ⟨?_, by simp, ?_⟩
  · refine ⟨inv.iA_le, hv, ?_, ?_, ?_, ?_, ?_, inv.save_lt, ?_⟩
    · intro i hi
      dsimp only at hi ⊢
      injection hi with hi
      subst hi
      exact ⟨hialt, hiaeq, fun k hk => Or.inl (hEA k hk)⟩
    · intro h
      simp at h
    · intro j hj
      dsimp only at hj ⊢
      injection hj with hj
      subst hj
      refine ⟨hv, ?_⟩
      intro k hk hne
      by_cases hkb : k = ib
      · right
        rw [hkb]
      · exact Or.inl (hEB k (by omega) hkb)
    · intro h
      simp at h
    · intro j hj _
      dsimp only at hj
      injection hj with hj
      subst hj
      exact Nat.lt_succ_self _
    · intro hs
      exact ⟨(inv.scan hsc).1, Nat.le_trans (inv.scan hsc).2 (Nat.le_succ _)⟩
  · simp only [measureP, hsn]
    try dsimp only
    refine measureB_decr ?_
    simp [hsc]
    omega

theorem step_scanEnter {ia ib : Nat} (hsn : s.fNext = (some ia, some ib))
    (hc : (hget A ia).Compare (hget B ib) maxdist = 0)
    (hv : s.fIterB < B.length)
    (hcj : ¬ (hget A ia).Compare (hget B s.fIterB) maxdist < 0)
    (hsc : s.fScanning = false)
    (inv : PIInv A B EA EB s) : StepGoal A B maxdist EA EB s := by
  obtain ⟨hialt, hiaeq, hEA⟩ := inv.nextA_some ia (by rw [hsn])
  obtain ⟨hiblt, hEB⟩ := inv.nextB_some ib (by rw [hsn])
  have hblt : ib < s.fIterB := inv.nextB_lt ib (by rw [hsn]) (by rw [hsn]; simp)
  unfold StepGoal
  rw [Next_eq_scanEnter A B maxdist s hsn hc (by rw [readIdx_lt hv]) hcj hsc]
  rw [readIdx_lt hv]
  refine ⟨?_, by simp, ?_⟩
  · refine ⟨inv.iA_le, hv, ?_, ?_, ?_, ?_, ?_, ?_, ?_⟩
    · intro i hi
      dsimp only at hi ⊢
      injection hi with hi
      subst hi
      exact ⟨hialt, hiaeq, fun k hk => Or.inl (hEA k hk)⟩
    · intro h
      simp at h
    · intro j hj
      dsimp only at hj ⊢
      injection hj with hj
      subst hj
      refine ⟨hv, ?_⟩
      intro k hk hne
      by_cases hkb : k = ib
      · right
        rw [hkb]
      · exact Or.inl (hEB k (by omega) hkb)
    · intro h
      simp at h
    · intro j hj _
      dsimp only at hj
      injection hj with hj
      subst hj
      exact Nat.lt_succ_self _
    · intro h hh
      dsimp only at hh
      injection hh with hh
      subst hh
      exact hiblt
    · intro _
      exact ⟨⟨ib, rfl, Nat.lt_succ_of_lt hblt⟩, Nat.le_refl _⟩
  · simp only [measureP, hsn]
    try dsimp only
    refine measureB_decr ?_
    simp [hsc]
    omega

theorem step_normal {ia ib : Nat} (hsn : s.fNext = (some ia, some ib))
    (hc : (hget A ia).Compare (hget B ib) maxdist = 0)
    (hse : (readIdx B.length s.fIterB).1 = none ∨
      ∃ j, (readIdx B.length s.fIterB).1 = some j ∧
        (hget A ia).Compare (hget B j) maxdist < 0)
    (hsc : s.fScanning = false)
    (inv : PIInv A B EA EB s) : StepGoal A B maxdist EA EB s := by
  obtain ⟨hialt, hiaeq, hEA⟩ := inv.nextA_some ia (by rw [hsn])
  obtain ⟨hiblt, hEB⟩ := inv.nextB_some ib (by rw [hsn])
  unfold StepGoal
  rw [Next_eq_normal A B maxdist s hsn hc hse hsc]
  rcases Nat.lt_or_ge s.fIterA A.length with hva | hva <;>
    rcases Nat.lt_or_ge s.fIterB B.length with hvb | hvb
  · rw [readIdx_lt hva, readIdx_lt hvb]
    refine ⟨?_, by simp, ?_⟩
    · refine ⟨hva, hvb, ?_, ?_, ?_, ?_, ?_, inv.save_lt, ?_⟩
      · intro i hi
        dsimp only at hi ⊢
        injection hi with hi
        subst hi
        refine ⟨hva, rfl, ?_⟩
        intro k hk
        rcases Nat.lt_or_ge k ia with hk2 | hk2
        · exact Or.inl (hEA k hk2)
        · right
          dsimp only
          have hkia : k = ia := by omega
          rw [hkia]
      · intro h
        simp at h
      · intro j hj
        dsimp only at hj ⊢
        injection hj with hj
        subst hj
        refine ⟨hvb, ?_⟩
        intro k hk hne
        by_cases hkb : k = ib
        · right
          rw [hkb]
        · exact Or.inl (hEB k (by omega) hkb)
      · intro h
        simp at h
      · intro j hj _
        dsimp only at hj
        injection hj with hj
        subst hj
        exact Nat.lt_succ_self _
      · intro hs
        exact ⟨(inv.scan hs).1, Nat.le_trans (inv.scan hs).2 (Nat.le_succ _)⟩
    · simp only [measureP, hsn]
      try dsimp only
      refine measureA_decr B ?_ (Nat.sub_le _ _) (Nat.sub_le _ _) ?_
      · simp
        omega
      · split <;> omega
  · rw [readIdx_lt hva, readIdx_ge hvb]
    have hBeq : s.fIterB = B.length := Nat.le_antisymm inv.iB_le hvb
    refine ⟨?_, by simp, ?_⟩
    · refine ⟨hva, inv.iB_le, ?_, ?_, ?_, ?_, ?_, inv.save_lt, inv.scan⟩
      · intro i hi
        dsimp only at hi ⊢
        injection hi with hi
        subst hi
        refine ⟨hva, rfl, ?_⟩
        intro k hk
        rcases Nat.lt_or_ge k ia with hk2 | hk2
        · exact Or.inl (hEA k hk2)
        · right
          dsimp only
          have hkia : k = ia := by omega
          rw [hkia]
      · intro h
        simp at h
      · intro j hj
        simp at hj
      · intro _ k hk
        by_cases hkb : k = ib
        · right
          dsimp only
          rw [hkb]
        · exact Or.inl (hEB k (by omega) hkb)
      · intro j hj
        simp at hj
    · simp only [measureP, hsn]
      try dsimp only
      refine measureA_decr B ?_ (Nat.sub_le _ _) (Nat.sub_le _ _) ?_
      · simp
        omega
      · split <;> omega
  · rw [readIdx_ge hva, readIdx_lt hvb]
    have hAeq : s.fIterA = A.length := Nat.le_antisymm inv.iA_le hva
    refine ⟨?_, by simp, ?_⟩
    · refine ⟨inv.iA_le, hvb, ?_, ?_, ?_, ?_, ?_, inv.save_lt, ?_⟩
      · intro i hi
        simp at hi
      · intro _ k hk
        rcases Nat.lt_or_ge k ia with hk2 | hk2
        · exact Or.inl (hEA k hk2)
        · right
          dsimp only
          have hkia : k = ia := by omega
          rw [hkia]
      · intro j hj
        dsimp only at hj ⊢
        injection hj with hj
        subst hj
        refine ⟨hvb, ?_⟩
        intro k hk hne
        by_cases hkb : k = ib
        · right
          rw [hkb]
        · exact Or.inl (hEB k (by omega) hkb)
      · intro h
        simp at h
      · intro j hj hne
        exact absurd rfl hne
      · intro hs
        exact ⟨(inv.scan hs).1, Nat.le_trans (inv.scan hs).2 (Nat.le_succ _)⟩
    · simp only [measureP, hsn]
      try dsimp only
      refine measureA_decr B ?_ (Nat.sub_le _ _) (Nat.sub_le _ _) ?_
      · simp
      · split <;> omega
  · rw [readIdx_ge hva, readIdx_ge hvb]
    have hAeq : s.fIterA = A.length := Nat.le_antisymm inv.iA_le hva
    have hBeq : s.fIterB = B.length := Nat.le_antisymm inv.iB_le hvb
    refine ⟨?_, by simp, ?_⟩
    · refine ⟨inv.iA_le, inv.iB_le, ?_, ?_, ?_, ?_, ?_, inv.save_lt, inv.scan⟩
      · intro i hi
        simp at hi
      · intro _ k hk
        rcases Nat.lt_or_ge k ia with hk2 | hk2
        · exact Or.inl (hEA k hk2)
        · right
          dsimp only
          have hkia : k = ia := by omega
          rw [hkia]
      · intro j hj
        simp at hj
      · intro _ k hk
        by_cases hkb : k = ib
        · right
          dsimp only
          rw [hkb]
        · exact Or.inl (hEB k (by omega) hkb)
      · intro j hj
        simp at hj
    · simp only [measureP, hsn]
      try dsimp only
      refine measureA_decr B ?_ (Nat.sub_le _ _) (Nat.sub_le _ _) ?_
      · simp
      · split <;> omega

theorem step_restoreNoA {ia ib : Nat} (hsn : s.fNext = (some ia, some ib))
    (hc : (hget A ia).Compare (hget B ib) maxdist = 0)
    (hse : (readIdx B.length s.fIterB).1 = none ∨
      ∃ j, (readIdx B.length s.fIterB).1 = some j ∧
        (hget A ia).Compare (hget B j) maxdist < 0)
    (hsc : s.fScanning = true)
    (hva : A.length ≤ s.fIterA)
    (inv : PIInv A B EA EB s) : StepGoal A B maxdist EA EB s := by
  obtain ⟨hialt, hiaeq, hEA⟩ := inv.nextA_some ia (by rw [hsn])
  obtain ⟨hiblt, hEB⟩ := inv.nextB_some ib (by rw [hsn])
  obtain ⟨⟨h0, hsh, hhlt⟩, hsvle⟩ := inv.scan hsc
  have hAeq : s.fIterA = A.length := Nat.le_antisymm inv.iA_le hva
  unfold StepGoal
  rw [Next_eq_restoreNoA A B maxdist s hsn hc hse hsc (by rw [readIdx_ge hva])]
  rw [readIdx_ge hva]
  rcases Nat.lt_or_ge s.fIterB B.length with hvb | hvb
  · rw [readIdx_lt hvb]
    refine ⟨?_, by simp, ?_⟩
    · refine ⟨inv.iA_le, Nat.le_trans hsvle inv.iB_le, ?_, ?_, ?_, ?_, ?_,
        inv.save_lt, ?_⟩
      · intro i hi
        simp at hi
      · intro _ k hk
        rcases Nat.lt_or_ge k ia with hk2 | hk2
        · exact Or.inl (hEA k hk2)
        · right
          dsimp only
          have hkia : k = ia := by omega
          rw [hkia]
      · intro j hj
        dsimp only at hj ⊢
        injection hj with hj
        subst hj
        refine ⟨hvb, ?_⟩
        intro k hk hne
        by_cases hkb : k = ib
        · right
          rw [hkb]
        · exact Or.inl (hEB k (by omega) hkb)
      · intro h
        simp at h
      · intro j hj hne
        exact absurd rfl hne
      · intro hs
        simp at hs
    · simp only [measureP, hsn]
      try dsimp only
      refine measureA_decr B ?_ (Nat.sub_le _ _) (Nat.sub_le _ _) ?_
      · simp
      · split <;> omega
  · rw [readIdx_ge hvb]
    have hBeq : s.fIterB = B.length := Nat.le_antisymm inv.iB_le hvb
    refine ⟨?_, by simp, ?_⟩
    · refine ⟨inv.iA_le, Nat.le_trans hsvle inv.iB_le, ?_, ?_, ?_, ?_, ?_,
        inv.save_lt, ?_⟩
      · intro i hi
        simp at hi
      · intro _ k hk
        rcases Nat.lt_or_ge k ia with hk2 | hk2
        · exact Or.inl (hEA k hk2)
        · right
          dsimp only
          have hkia : k = ia := by omega
          rw [hkia]
      · intro j hj
        simp at hj
      · intro _ k hk
        by_cases hkb : k = ib
        · right
          dsimp only
          rw [hkb]
        · exact Or.inl (hEB k (by omega) hkb)
      · intro j hj
        simp at hj
      · intro hs
        simp at hs
    · simp only [measureP, hsn]
      try dsimp only
      refine measureA_decr B ?_ (Nat.sub_le _ _) (Nat.sub_le _ _) ?_
      · simp
      · split <;> omega

theorem step_restoreA {ia ib : Nat} (hsn : s.fNext = (some ia, some ib))
    (hc : (hget A ia).Compare (hget B ib) maxdist = 0)
    (hse : (readIdx B.length s.fIterB).1 = none ∨
      ∃ j, (readIdx B.length s.fIterB).1 = some j ∧
        (hget A ia).Compare (hget B j) maxdist < 0)
    (hsc : s.fScanning = true)
    (hva : s.fIterA < A.length)
    (inv : PIInv A B EA EB s) : StepGoal A B maxdist EA EB s := by
  obtain ⟨hialt, hiaeq, hEA⟩ := inv.nextA_some ia (by rw [hsn])
  obtain ⟨hiblt, hEB⟩ := inv.nextB_some ib (by rw [hsn])
  obtain ⟨⟨h0, hsh, hhlt⟩, hsvle⟩ := inv.scan hsc
  have hsvlen : s.fSaveIter ≤ B.length := Nat.le_trans hsvle inv.iB_le
  have hjv : ∀ j, s.fSaveHit = some j → j < B.length ∧ j < s.fSaveIter := by
    intro j hj
    rw [hsh] at hj
    injection hj with hj
    subst hj
    exact ⟨inv.save_lt h0 hsh, hhlt⟩
  have hQall : ∀ k, k < s.fIterB →
      (EB k ∨ (some ib : Option Nat) = some k) := by
    intro k hk
    by_cases hkb : k = ib
    · right
      rw [hkb]
    · exact Or.inl (hEB k hk hkb)
  unfold StepGoal
  rw [Next_eq_restoreA A B maxdist s hsn hc hse hsc (by rw [readIdx_lt hva])]
  rw [readIdx_lt hva]
  rcases Nat.lt_or_ge s.fIterB B.length with hvb | hvb
  · rw [readIdx_lt hvb]
    have hbnds := scanForward_bounds B maxdist (hget A s.fIterA) (B.length + 2)
      s.fSaveHit (some s.fIterB) s.fSaveIter hsvlen hjv
    have hcov := scanForward_covered B maxdist (hget A s.fIterA)
      (fun k => EB k ∨ (some ib : Option Nat) = some k) s.fIterB (B.length + 2)
      s.fSaveHit s.fSaveIter hsvle hvb
      (by rw [hsh]; simp)
      (fun k hk => hQall k hk)
      (by
        intro k hk _
        rw [hsh] at hk
        injection hk with hk
        subst hk
        exact hQall h0 (Nat.lt_of_lt_of_le hhlt hsvle))
      (fun k hk _ => hQall k (Nat.lt_of_lt_of_le hk hsvle))
    refine ⟨?_, by simp, ?_⟩
    · refine ⟨hva, hbnds.1, ?_, ?_, ?_, ?_, ?_, inv.save_lt, ?_⟩
      · intro i hi
        dsimp only at hi ⊢
        injection hi with hi
        subst hi
        refine ⟨hva, rfl, ?_⟩
        intro k hk
        rcases Nat.lt_or_ge k ia with hk2 | hk2
        · exact Or.inl (hEA k hk2)
        · right
          dsimp only
          have hkia : k = ia := by omega
          rw [hkia]
      · intro h
        simp at h
      · intro j hj
        dsimp only at hj ⊢
        refine ⟨(hbnds.2.2 j hj).1, ?_⟩
        intro k hk hkj
        refine hcov.2 k hk ?_
        rw [hj]
        intro he
        injection he with he
        exact hkj he.symm
      · intro hnone
        dsimp only at hnone
        exact absurd hnone hcov.1
      · intro j hj _
        dsimp only at hj ⊢
        exact (hbnds.2.2 j hj).2
      · intro hs
        simp at hs
    · simp only [measureP, hsn]
      try dsimp only
      refine measureA_decr B ?_ (Nat.sub_le _ _) (Nat.sub_le _ _) ?_
      · simp
        omega
      · split <;> omega
  · rw [readIdx_ge hvb]
    have hBeq : s.fIterB = B.length := Nat.le_antisymm inv.iB_le hvb
    have hbnds := scanForward_bounds B maxdist (hget A s.fIterA) (B.length + 2)
      s.fSaveHit none s.fSaveIter hsvlen hjv
    have hQlen : ∀ k, k < B.length →
        (EB k ∨ (some ib : Option Nat) = some k) := by
      intro k hk
      exact hQall k (by omega)
    refine ⟨?_, by simp, ?_⟩
    · refine ⟨hva, hbnds.1, ?_, ?_, ?_, ?_, ?_, inv.save_lt, ?_⟩
      · intro i hi
        dsimp only at hi ⊢
        injection hi with hi
        subst hi
        refine ⟨hva, rfl, ?_⟩
        intro k hk
        rcases Nat.lt_or_ge k ia with hk2 | hk2
        · exact Or.inl (hEA k hk2)
        · right
          dsimp only
          have hkia : k = ia := by omega
          rw [hkia]
      · intro h
        simp at h
      · intro j hj
        dsimp only at hj ⊢
        refine ⟨(hbnds.2.2 j hj).1, ?_⟩
        intro k hk _
        exact hQlen k (by
          have := hbnds.1
          omega)
      · intro _ k hk
        exact hQlen k hk
      · intro j hj _
        dsimp only at hj ⊢
        exact (hbnds.2.2 j hj).2
      · intro hs
        simp at hs
    · simp only [measureP, hsn]
      try dsimp only
      refine measureA_decr B ?_ (Nat.sub_le _ _) (Nat.sub_le _ _) ?_
      · simp
        omega
      · split <;> omega

/-- One non-terminal Next step preserves the invariant, emits something, and
decreases the measure: the case dispatch over the branches of Next. -/
theorem PIInv_step (inv : PIInv A B EA EB s) (hnt : s.fNext ≠ (none, none)) :
    StepGoal A B maxdist EA EB s := by
  rcases hsn : s.fNext with ⟨_ | ia, _ | ib⟩
  · exact absurd hsn hnt
  · exact step_onlyB A B maxdist EA EB s hsn inv
  · exact step_onlyA A B maxdist EA EB s hsn inv
  · rcases Compare_trichotomy (hget A ia) (hget B ib) maxdist with hc | hc | hc
    · exact step_lt A B maxdist EA EB s hsn hc inv
    · rcases Nat.lt_or_ge s.fIterB B.length with hvb | hvb
      · by_cases hcj : (hget A ia).Compare (hget B s.fIterB) maxdist < 0
        · have hse : (readIdx B.length s.fIterB).1 = none ∨
              ∃ j, (readIdx B.length s.fIterB).1 = some j ∧
                (hget A ia).Compare (hget B j) maxdist < 0 :=
            Or.inr ⟨s.fIterB, by rw [readIdx_lt hvb], hcj⟩
          by_cases hsc : s.fScanning = true
          · rcases Nat.lt_or_ge s.fIterA A.length with hva | hva
            · exact step_restoreA A B maxdist EA EB s hsn hc hse hsc hva inv
            · exact step_restoreNoA A B maxdist EA EB s hsn hc hse hsc hva inv
          · exact step_normal A B maxdist EA EB s hsn hc hse
              (by simpa using hsc) inv
        · by_cases hsc : s.fScanning = true
          · exact step_scanCont A B maxdist EA EB s hsn hc hvb hcj hsc inv
          · exact step_scanEnter A B maxdist EA EB s hsn hc hvb hcj
              (by simpa using hsc) inv
      · have hse : (readIdx B.length s.fIterB).1 = none ∨
            ∃ j, (readIdx B.length s.fIterB).1 = some j ∧
              (hget A ia).Compare (hget B j) maxdist < 0 :=
          Or.inl (by rw [readIdx_ge hvb])
        by_cases hsc : s.fScanning = true
        · rcases Nat.lt_or_ge s.fIterA A.length with hva | hva
          · exact step_restoreA A B maxdist EA EB s hsn hc hse hsc hva inv
          · exact step_restoreNoA A B maxdist EA EB s hsn hc hse hsc hva inv
        · exact step_normal A B maxdist EA EB s hsn hc hse
            (by simpa using hsc) inv
    · exact step_gt A B maxdist EA EB s hsn hc inv

end StepLemmas

/-- One-step unfolding of the emission trace. -/
theorem emitTrace_succ (A B : List Hit) (maxdist : ℚ) (fuel : Nat) (s : HitPairIter) :
    emitTrace A B maxdist (fuel + 1) s =
      (Next A B maxdist s).fCurrent ::
        (if (Next A B maxdist s).fCurrent = (none, none) then []
         else emitTrace A B maxdist fuel (Next A B maxdist s)) := rfl

/-- Every both-present pair anywhere in an emission trace compares equal. -/
theorem emitTrace_sound (A B : List Hit) (maxdist : ℚ) :
    ∀ (fuel : Nat) (s : HitPairIter) (e : Option Nat × Option Nat),
      e ∈ emitTrace A B maxdist fuel s →
      ∀ i j, e = (some i, some j) →
      (hget A i).Compare (hget B j) maxdist = 0 := by
  intro fuel
  induction fuel with
  | zero =>
    intro s e he
    cases he
  | succ fuel ih =>
    intro s e he i j hij
    rw [emitTrace_succ] at he
    rcases List.mem_cons.mp he with he | he
    · exact Next_sound A B maxdist s i j (by rw [← he, hij])
    · by_cases hc : (Next A B maxdist s).fCurrent = (none, none)
      · rw [if_pos hc] at he
        cases he
      · rw [if_neg hc] at he
        exact ih (Next A B maxdist s) e he i j hij

/-- Main induction: with enough fuel relative to the measure, every index not
yet emitted appears in the remaining trace in its component. -/
theorem emitTrace_complete (A B : List Hit) (maxdist : ℚ) :
    ∀ (fuel : Nat) (s : HitPairIter) (EA EB : Nat → Prop),
      PIInv A B EA EB s → measureP A B s < fuel →
      (∀ k, k < A.length → EA k ∨
        ∃ e ∈ emitTrace A B maxdist fuel s, e.1 = some k) ∧
      (∀ k, k < B.length → EB k ∨
        ∃ e ∈ emitTrace A B maxdist fuel s, e.2 = some k) := by
  intro fuel
  induction fuel with
  | zero =>
    intro s EA EB _ hm
    omega
  | succ fuel ih =>
    intro s EA EB inv hm
    by_cases hnt : s.fNext = (none, none)
    · constructor
      · intro k hk
        exact Or.inl (inv.nextA_none (by rw [hnt]) k hk)
      · intro k hk
        exact Or.inl (inv.nextB_none (by rw [hnt]) k hk)
    · have hg := PIInv_step A B maxdist EA EB s inv hnt
      unfold StepGoal at hg
      obtain ⟨inv1, hcur, hdec⟩ := hg
      have hm1 : measureP A B (Next A B maxdist s) < fuel := by omega
      have hih := ih (Next A B maxdist s) _ _ inv1 hm1
      rw [emitTrace_succ, if_neg hcur]
      constructor
      · intro k hk
        rcases hih.1 k hk with hE | ⟨e, he, hek⟩
        · rcases hE with hE | hE
          · exact Or.inl hE
          · exact Or.inr ⟨(Next A B maxdist s).fCurrent,
              List.mem_cons_self _ _, hE⟩
        · exact Or.inr ⟨e, List.mem_cons_of_mem _ he, hek⟩
      · intro k hk
        rcases hih.2 k hk with hE | ⟨e, he, hek⟩
        · rcases hE with hE | hE
          · exact Or.inl hE
          · exact Or.inr ⟨(Next A B maxdist s).fCurrent,
              List.mem_cons_self _ _, hE⟩
        · exact Or.inr ⟨e, List.mem_cons_of_mem _ he, hek⟩

/-- The constructor state written with explicit reads. -/
theorem init_eq (A B : List Hit) :
    HitPairIter.init A B =
      { fIterA := (readIdx A.length 0).2, fIterB := (readIdx B.length 0).2,
        fSaveIter := 0, fSaveHit := none, fScanning := false,
        fCurrent := (none, none),
        fNext := ((readIdx A.length 0).1, (readIdx B.length 0).1) } := rfl

/-- The invariant holds right after construction, with nothing emitted yet. -/
theorem init_inv (A B : List Hit) :
    PIInv A B (fun _ => False) (fun _ => False) (HitPairIter.init A B) := by
  rw [init_eq]
  rcases Nat.eq_zero_or_pos A.length with hA0 | hA0 <;>
    rcases Nat.eq_zero_or_pos B.length with hB0 | hB0
  · rw [readIdx_ge (by omega), readIdx_ge (by omega)]
    refine ⟨Nat.zero_le _, Nat.zero_le _, ?_, ?_, ?_, ?_, ?_, ?_, ?_⟩
    · intro i hi
      simp at hi
    · intro _ k hk
      omega
    · intro j hj
      simp at hj
    · intro _ k hk
      omega
    · intro j hj
      simp at hj
    · intro h hh
      simp at hh
    · intro hs
      simp at hs
  · rw [readIdx_ge (by omega), readIdx_lt (by omega)]
    refine ⟨Nat.zero_le _, hB0, ?_, ?_, ?_, ?_, ?_, ?_, ?_⟩
    · intro i hi
      simp at hi
    · intro _ k hk
      omega
    · intro j hj
      dsimp only at hj ⊢
      injection hj with hj
      subst hj
      exact ⟨hB0, fun k hk hne => by omega⟩
    · intro h
      simp at h
    · intro j hj hne
      exact absurd rfl hne
    · intro h hh
      simp at hh
    · intro hs
      simp at hs
  · rw [readIdx_lt (by omega), readIdx_ge (by omega)]
    refine ⟨hA0, Nat.zero_le _, ?_, ?_, ?_, ?_, ?_, ?_, ?_⟩
    · intro i hi
      dsimp only at hi ⊢
      injection hi with hi
      subst hi
      exact ⟨hA0, rfl, fun k hk => by omega⟩
    · intro h
      simp at h
    · intro j hj
      simp at hj
    · intro _ k hk
      omega
    · intro j hj
      simp at hj
    · intro h hh
      simp at hh
    · intro hs
      simp at hs
  · rw [readIdx_lt (by omega), readIdx_lt (by omega)]
    refine ⟨hA0, hB0, ?_, ?_, ?_, ?_, ?_, ?_, ?_⟩
    · intro i hi
      dsimp only at hi ⊢
      injection hi with hi
      subst hi
      exact ⟨hA0, rfl, fun k hk => by omega⟩
    · intro h
      simp at h
    · intro j hj
      dsimp only at hj ⊢
      injection hj with hj
      subst hj
      exact ⟨hB0, fun k hk hne => by omega⟩
    · intro h
      simp at h
    · intro j hj hne
      dsimp only at hj ⊢
      injection hj with hj
      subst hj
      omega
    · intro h hh
      simp at hh
    · intro hs
      simp at hs

/-- C2: Pair-iterator completeness.  Over sorted collections every hit of A
appears as the first component of some emission, paired either with nothing
or with a B hit comparing equal within maxdist; symmetrically every hit of B
appears as a second component. -/
theorem pairIter_completeness (A B : List Hit) (maxdist : ℚ)
    (_hA : SortedByPos A) (_hB : SortedByPos B) :
    (∀ i, i < A.length → ∃ e ∈ emissions A B maxdist,
      e.1 = some (hget A i) ∧
      (e.2 = none ∨ ∃ b, e.2 = some b ∧ (hget A i).Compare b maxdist = 0)) ∧
    (∀ j, j < B.length → ∃ e ∈ emissions A B maxdist,
      e.2 = some (hget B j) ∧
      (e.1 = none ∨ ∃ a, e.1 = some a ∧ a.Compare (hget B j) maxdist = 0)) := by
  have hcomp := emitTrace_complete A B maxdist (fullFuel A B)
    (HitPairIter.init A B) (fun _ => False) (fun _ => False) (init_inv A B)
    (measureP_lt_fullFuel A B (HitPairIter.init A B))
  constructor
  · intro i hi
    rcases hcomp.1 i hi with hF | ⟨e, he, hei⟩
    · exact hF.elim
    · refine ⟨(e.1.map (hget A), e.2.map (hget B)), ?_, ?_, ?_⟩
      · unfold emissions
        exact List.mem_map_of_mem _ he
      · rw [hei]
        rfl
      · rcases he2 : e.2 with _ | j
        · left
          rfl
        · right
          refine ⟨hget B j, rfl, ?_⟩
        
          refine emitTrace_sound A B maxdist (fullFuel A B)
            (HitPairIter.init A B) e he i j ?_
          obtain ⟨e1, e2⟩ := e
          dsimp only at hei he2
          rw [hei, he2]
  · intro j hj
    rcases hcomp.2 j hj with hF | ⟨e, he, hej⟩
    · exact hF.elim
    · refine ⟨(e.1.map (hget A), e.2.map (hget B)), ?_, ?_, ?_⟩
      · unfold emissions
        exact List.mem_map_of_mem _ he
      · rw [hej]
        rfl
      · rcases he1 : e.1 with _ | i
        · left
          rfl
        · right
          refine ⟨hget A i, rfl, ?_⟩
          refine emitTrace_sound A B maxdist (fullFuel A B)
            (HitPairIter.init A B) e he i j ?_
          obtain ⟨e1, e2⟩ := e
          dsimp only at hej he1
          rw [hej, he1]

/-- Witness for C2: instantiated on scenario S5, where both collections are
sorted, so every hit of side A is covered by some emission. -/
theorem pairIter_completeness_witness :
    SortedByPos hitsA5 ∧ SortedByPos hitsB5 ∧
      (∀ i, i < hitsA5.length → ∃ e ∈ emissions hitsA5 hitsB5 (1/2),
        e.1 = some (hget hitsA5 i) ∧
        (e.2 = none ∨ ∃ b, e.2 = some b ∧ (hget hitsA5 i).Compare b (1/2) = 0)) :=
  ⟨by with_unfolding_all decide, by with_unfolding_all decide,
    (pairIter_completeness hitsA5 hitsB5 (1/2) (by with_unfolding_all decide)
      (by with_unfolding_all decide)).1⟩

end TreeSearch
